import Mathlib

/-!
Verification of the KernelSU tree-patching tool (`apply_kernelsu.py`).

Texts are embedded as `List Char`.  Python's `read_text` (universal-newline
decoding) is `normNl`; `write_text(..., newline="\n")` performs no
translation, so a write stores the computed text verbatim.  The regular
expressions of the source are embedded by faithful character-level scanners.
Since Python's `\s` matches `\n`, the whitespace runs of both patterns can
cross line boundaries:

* `re.search(r"^obj-\$\(CONFIG_.*\)\s*\+=.*$", ·, re.MULTILINE)` is
  `objSearch`: the anchor is tried at every line start from left to right;
  at a line start the engine commits to the rightmost `)` of that line whose
  continuation satisfies `\s*\+=` — the whitespace run possibly extending
  over following lines — and the match ends at the end of the line holding
  the `+=`.
* the marker-removal substitution
  `re.sub(rf"^#\s*CONFIG_{sym}\s+is\s+not\s+set\s*$\n?", "", ·, re.MULTILINE)`
  is `removeMarkers`: a left-to-right non-overlapping scan deleting each
  match, where the match's internal whitespace runs can also cross newlines
  and the trailing `\s*$\n?` ends the match at the end of the text or right
  after the last newline of the final whitespace run.

The assignment patterns `^CONFIG_<sym>=` and `^CONFIG_<sym>=.*$` contain no
`\s` and cannot cross a newline, so they are embedded per line.
-/

/-- Character list of a string literal. -/
def chars (s : String) : List Char := s.data

/-- Python's `\s` character class for `str` patterns: the ASCII whitespace
characters (including the separator control codes 0x1c-0x1f) together with
the Unicode whitespace code points. -/
def pySpace (c : Char) : Bool :=
  c = ' ' || c = '\t' || c = '\n' || c = '\x0b' || c = '\x0c' || c = '\r' ||
  c = '\x1c' || c = '\x1d' || c = '\x1e' || c = '\x1f' ||
  c = '\u0085' || c = '\u00A0' || c = '\u1680' ||
  ('\u2000' ≤ c && c ≤ '\u200A') ||
  c = '\u2028' || c = '\u2029' || c = '\u202F' || c = '\u205F' || c = '\u3000'

/-- Decomposition of a text into its lines: `splitLines "a\nb\n"` is
`["a", "b", ""]`.  The result is always nonempty. -/
def splitLines : List Char → List (List Char)
  | [] => [[]]
  | c :: cs =>
    match splitLines cs with
    | [] => [[c]]
    | l :: ls => if c = '\n' then [] :: l :: ls else (c :: l) :: ls

/-- Inverse of `splitLines`: interleaves the lines with newline characters. -/
def joinLines : List (List Char) → List Char
  | [] => []
  | [l] => l
  | l :: ls => l ++ '\n' :: joinLines ls

/-- Universal-newline decoding performed by Python's `read_text`:
`"\r\n"` and a lone `"\r"` both become `"\n"`. -/
def normNl : List Char → List Char
  | [] => []
  | '\r' :: '\n' :: cs => '\n' :: normNl cs
  | '\r' :: cs => '\n' :: normNl cs
  | c :: cs => c :: normNl cs

/-- Python's substring test `pat in text`. -/
def containsSub (text pat : List Char) : Bool :=
  pat.isPrefixOf text ||
    match text with
    | [] => false
    | _ :: t => containsSub t pat

/-- Number of substring occurrences of `pat` in `text` (one per start
position). -/
def countOcc (text pat : List Char) : Nat :=
  (if pat.isPrefixOf text then 1 else 0) +
    match text with
    | [] => 0
    | _ :: t => countOcc t pat

/-- Distance to the first newline of a text (its length when none occurs). -/
def findNlFrom : List Char → Nat
  | [] => 0
  | c :: cs => if c = '\n' then 0 else findNlFrom cs + 1

/-- Python's `text.find("\n", i)`, with the not-found result `-1` already
collapsed to `len(text)` as the caller in `ensure_line_in_file` does. -/
def findNl (text : List Char) (i : Nat) : Nat := i + findNlFrom (text.drop i)

/-- Whether a text ends with a newline, `text.endswith("\n")`. -/
def endsNl (t : List Char) : Bool := t.getLast? == some '\n'

/-- Shared append path of `ensure_line_in_file` and `set_defconfig_symbol`:
terminate the text with a newline if it does not already end with one, then
add `line` as a final newline-terminated line. -/
def appendLine (line text : List Char) : List Char :=
  (if endsNl text then text else text ++ ['\n']) ++ line ++ ['\n']

/-- Core of `ensure_line_in_file` (src/apply_kernelsu.py:11-34) as a pure
function from the decoded file text to the text that ends up on disk.  The
regex search is abstracted as `search : Option (List Char → Option Nat)`
returning the match-end offset `m.end(0)`; `none` stands for
`after_regex=None`. -/
def ensure_line_in_file (search : Option (List Char → Option Nat))
    (line text : List Char) : List Char :=
  if containsSub text line then text
  else
    match search.bind fun f => f text with
    | some e =>
      let insertAt :=
        if e < text.length && !(text.getD e ' ' = '\n') then findNl text e else e
      let ins :=
        (if 0 < insertAt && !(text.getD (insertAt - 1) ' ' = '\n') then ['\n'] else [])
          ++ line ++ ['\n']
      text.take insertAt ++ ins ++ text.drop insertAt
    | none => appendLine line text

/-- File-level behaviour of `ensure_line_in_file`: the raw on-disk bytes are
decoded with universal newlines; when the line is already present nothing is
written and the raw bytes survive; otherwise the computed text is written
(with `newline="\n"`, i.e. verbatim). -/
def ensureLineFile (search : Option (List Char → Option Nat))
    (line raw : List Char) : List Char :=
  let text := normNl raw
  if containsSub text line then raw
  else ensure_line_in_file search line text

/-- Literal-token step of the regex scanners: consume `tok` or fail. -/
def afterToken (tok s : List Char) : Option (List Char) :=
  if tok.isPrefixOf s then some (s.drop tok.length) else none

/-- Scanner step for `\s+` followed by a literal that starts with a
non-whitespace character: require at least one whitespace character and
consume the maximal whitespace run (the run may cross newlines, since `\s`
matches `\n`, and its greedy length is forced because the next literal
cannot begin with whitespace). -/
def ws1 : List Char → Option (List Char)
  | [] => none
  | c :: cs => if pySpace c then some (cs.dropWhile pySpace) else none

/-- Scanner for `\s*CONFIG_<sym>\s+is\s+not\s+set` after the leading `#`,
returning the unconsumed rest.  Each whitespace run may cross newlines. -/
def markerTail (sym r0 : List Char) : Option (List Char) := do
  let r1 ← afterToken (chars "CONFIG_" ++ sym) (r0.dropWhile pySpace)
  let r2 ← ws1 r1
  let r3 ← afterToken (chars "is") r2
  let r4 ← ws1 r3
  let r5 ← afterToken (chars "not") r4
  let r6 ← ws1 r5
  afterToken (chars "set") r6

/-- Whether a single (newline-free) line is a disabled marker for `sym`,
i.e. matches `^#\s*CONFIG_<sym>\s+is\s+not\s+set\s*$` on its own. -/
def is_not_set_marker (sym l : List Char) : Bool :=
  match l with
  | [] => false
  | c :: r0 =>
    if c = '#' then
      match markerTail sym r0 with
      | some rest => rest.all pySpace
      | none => false
    else false

/-- The suffix strictly after the last newline of a list, or `none` when the
list holds no newline. -/
def afterLastNl : List Char → Option (List Char)
  | [] => none
  | c :: t =>
    match afterLastNl t with
    | some r => some r
    | none => if c = '\n' then some t else none

/-- Resolution of the trailing `\s*$\n?` of the marker pattern, given the
text right after the `set` literal: the greedy `\s*` takes the maximal
whitespace run and backtracks to the rightmost position where `$` can
match — the end of the text when the run reaches it, otherwise the last
newline inside the run, which the `\n?` then consumes; with no such
position the match fails.  Returns the text remaining after the whole
match. -/
def markerEnd (s : List Char) : Option (List Char) :=
  if s.dropWhile pySpace = [] then some []
  else
    match afterLastNl (s.takeWhile pySpace) with
    | some r => some (r ++ s.dropWhile pySpace)
    | none => none

/-- Match of `#\s*CONFIG_<sym>\s+is\s+not\s+set\s*$\n?` at the head of the
input (which the caller guarantees is a line start): the text remaining
after the match, or `none`. -/
def markerMatch (sym : List Char) : List Char → Option (List Char)
  | [] => none
  | c :: r0 => if c = '#' then (markerTail sym r0).bind markerEnd else none

/-- Alphabet of the marker pattern: every character a marker match consumes
is `#`, whitespace, or a character of one of the literals. -/
def markerAlpha (sym : List Char) (c : Char) : Bool :=
  c = '#' || pySpace c || decide (c ∈ chars "CONFIG_" ++ sym ++ chars "isnotset")

/-- Worker for `removeMarkers`: the left-to-right non-overlapping scan of
`re.sub`.  `atStart` records whether the current position is a line start
(where the `^` anchor can match); a match deletes its text and the scan
resumes right after it, which is again a line start, as every match ends
just after a newline or at the end of the text.  The fuel starts at the
text length; every step consumes at least one character, so it never runs
out. -/
def removeMarkersGo (sym : List Char) : Nat → Bool → List Char → List Char
  | 0, _, s => s
  | _ + 1, _, [] => []
  | fuel + 1, atStart, c :: t =>
    if atStart then
      match markerMatch sym (c :: t) with
      | some r => removeMarkersGo sym fuel true r
      | none => c :: removeMarkersGo sym fuel (c = '\n') t
    else c :: removeMarkersGo sym fuel (c = '\n') t

/-- Effect of `re.sub(rf"^#\s*CONFIG_{sym}\s+is\s+not\s+set\s*$\n?", "", ·,
re.MULTILINE)` on a text.  Since `\s` matches `\n`, a single match can span
several lines. -/
def removeMarkers (sym text : List Char) : List Char :=
  removeMarkersGo sym text.length true text

/-- Assignment-line prefix `CONFIG_<sym>=` that `re.search` and `re.sub`
anchor on in `set_defconfig_symbol`; these two patterns contain no `\s` and
cannot cross a newline, so they are per-line. -/
def configAssign (sym : List Char) : List Char := chars "CONFIG_" ++ sym ++ ['=']

/-- Core of `set_defconfig_symbol` (src/apply_kernelsu.py:37-52) as a pure
function on the decoded file text: delete the disabled-marker matches, then
either rewrite every `CONFIG_<sym>=...` line to the new assignment (global
substitution) or append the assignment as a new final line. -/
def set_defconfig_symbol (sym value text : List Char) : List Char :=
  let t1 := removeMarkers sym text
  let newLine := configAssign sym ++ value
  if (splitLines t1).any fun l => (configAssign sym).isPrefixOf l then
    joinLines ((splitLines t1).map
      fun l => if (configAssign sym).isPrefixOf l then newLine else l)
  else
    appendLine newLine t1

/-- File-level behaviour of `set_defconfig_symbol`: decode with universal
newlines and always write the computed text back. -/
def setSymbolFile (sym value raw : List Char) : List Char :=
  set_defconfig_symbol sym value (normNl raw)

/-- Worker for `replaceAll`: `skip` counts characters of a recognized
occurrence still to be dropped. -/
def replaceAllGo (pat repl : List Char) : List Char → Nat → List Char
  | [], _ => []
  | _ :: cs, Nat.succ n => replaceAllGo pat repl cs n
  | c :: cs, 0 =>
    if pat ≠ [] && pat.isPrefixOf (c :: cs) then
      repl ++ replaceAllGo pat repl cs (pat.length - 1)
    else c :: replaceAllGo pat repl cs 0

/-- Python's `s.replace(pat, repl)` for nonempty `pat` (the only way the
source uses it): replace the non-overlapping occurrences of `pat` left to
right. -/
def replaceAll (pat repl s : List Char) : List Char :=
  replaceAllGo pat repl s 0

/-- Whether the continuation after a candidate `)` of the anchor pattern
satisfies `\s*\+=`: the greedy whitespace run (which may cross newlines)
must be followed by the literal `+=`; `+` is not whitespace, so the run
length is forced. -/
def plusAfterWs (t : List Char) : Bool :=
  (chars "+=").isPrefixOf (t.dropWhile pySpace)

/-- Offset from a candidate-`)` continuation to the match end: past the
whitespace run and the `+=`, the trailing `.*$` extends the match to the
end of the line holding the `+=`. -/
def plusEnd (t : List Char) : Nat :=
  let k := (t.takeWhile pySpace).length
  k + 2 + ((t.drop (k + 2)).takeWhile (fun c => !(c = '\n'))).length

/-- Scan of the current line (after the literal `obj-$(CONFIG_`) for the
`\)` of the anchor pattern.  The `.*` before `\)` is greedy and cannot
cross a newline, so the engine commits to the rightmost `)` of the line
whose continuation satisfies `\s*\+=.*$`; `best` carries the match-end
offset for the rightmost viable `)` seen so far. -/
def anchorCloseGo : List Char → Nat → Option Nat → Option Nat
  | [], _, best => best
  | c :: t, idx, best =>
    if c = '\n' then best
    else
      anchorCloseGo t (idx + 1)
        (if c = ')' && plusAfterWs t then some (idx + 1 + plusEnd t) else best)

/-- Match of `obj-\$\(CONFIG_.*\)\s*\+=.*$` at the head of the input (which
the caller guarantees is a line start): the offset of the match end
`m.end(0)`, or `none`. -/
def anchorScan (s : List Char) : Option Nat :=
  if (chars "obj-$(CONFIG_").isPrefixOf s then
    (anchorCloseGo (s.drop 13) 0 none).map (fun n => 13 + n)
  else none

/-- Worker for `objSearch`: try the anchor at every line start from left to
right, as `re.search` does for a `^`-anchored pattern under
`re.MULTILINE`. -/
def objSearchGo : Bool → Nat → List Char → Option Nat
  | _, _, [] => none
  | atStart, acc, c :: s =>
    if atStart then
      match anchorScan (c :: s) with
      | some n => some (acc + n)
      | none => objSearchGo (c = '\n') (acc + 1) s
    else objSearchGo (c = '\n') (acc + 1) s

/-- Old host-library-linkage variable name replaced in the dtc Makefile. -/
def dtcOld : List Char := chars "HOSTLDLIBS_dtc"

/-- New host-library-linkage variable name written into the dtc Makefile. -/
def dtcNew : List Char := chars "HOSTLOADLIBES_dtc"

/-- Step of `patch_kernel_tree` for `scripts/dtc/Makefile`
(src/apply_kernelsu.py:111-115): decode, and when the old variable name
occurs while the new one does not, write back the text with every occurrence
replaced; otherwise leave the raw bytes untouched. -/
def fixDtcMakefile (raw : List Char) : List Char :=
  let t := normNl raw
  if containsSub t dtcOld && !containsSub t dtcNew then replaceAll dtcOld dtcNew t
  else raw

/-- Conditional-build line inserted into `drivers/Makefile`. -/
def ksuObjLine : List Char := chars "obj-$(CONFIG_KSU) += kernelsu/"

/-- Semantics of `re.search(r"^obj-\$\(CONFIG_.*\)\s*\+=.*$", ·,
re.MULTILINE)`, the search passed for the drivers-Makefile anchor: the end
offset `m.end(0)` of the leftmost match.  The `\s*` between `\)` and `\+=`
can cross line boundaries. -/
def objSearch (s : List Char) : Option Nat := objSearchGo true 0 s

/-- Modelled from the spec: worker for `objSearchLast`, like `objSearchGo`
but keeping the match at the last line start where the anchor matches. -/
def objSearchLastGo : Bool → Nat → Option Nat → List Char → Option Nat
  | _, _, best, [] => best
  | atStart, acc, best, c :: s =>
    if atStart then
      match anchorScan (c :: s) with
      | some n => objSearchLastGo (c = '\n') (acc + 1) (some (acc + n)) s
      | none => objSearchLastGo (c = '\n') (acc + 1) best s
    else objSearchLastGo (c = '\n') (acc + 1) best s

/-- Modelled from the spec: the wording of the Text-Line Mutator section
says "only the last match's end position is used"; this returns the end
offset of the anchor match at the last line start where it matches, for
comparison with the first-match behaviour of `objSearch`. -/
def objSearchLast (s : List Char) : Option Nat := objSearchLastGo true 0 none s

/-- Source directive inserted into `drivers/Kconfig` (no anchor). -/
def ksuSourceLine : List Char := chars "source \"drivers/kernelsu/Kconfig\""

/-- Contents of the four kernel-tree files touched by `patch_kernel_tree`;
`none` models an absent file. -/
structure KTree where
  driversMakefile : Option (List Char)
  driversKconfig : Option (List Char)
  defconfig : Option (List Char)
  dtcMakefile : Option (List Char)
deriving DecidableEq

/-- Embedding of `patch_kernel_tree` (src/apply_kernelsu.py:96-124) on the
file contents of the tree: existence checks for the three required files in
source order (each failing with `SystemExit(f"Missing {path}")`), then the
dtc substitution, the two `ensure_line_in_file` calls and the three
`set_defconfig_symbol` calls. -/
def patch_kernel_tree (kernelRepo : List Char) (t : KTree) :
    Except (List Char) KTree :=
  match t.driversMakefile with
  | none => .error (chars "Missing " ++ kernelRepo ++ chars "/drivers/Makefile")
  | some mk =>
    match t.driversKconfig with
    | none => .error (chars "Missing " ++ kernelRepo ++ chars "/drivers/Kconfig")
    | some kc =>
      match t.defconfig with
      | none =>
        .error (chars "Missing " ++ kernelRepo ++ chars "/arch/arm64/configs/RMX3265_defconfig")
      | some dc =>
        let dtc := t.dtcMakefile.map fixDtcMakefile
        let mk := ensureLineFile (some objSearch) ksuObjLine mk
        let kc := ensureLineFile none ksuSourceLine kc
        let dc := setSymbolFile (chars "KSU") (chars "y") dc
        let dc := setSymbolFile (chars "KPROBES") (chars "y") dc
        let dc := setSymbolFile (chars "KPROBE_EVENTS") (chars "y") dc
        .ok ⟨some mk, some kc, some dc, dtc⟩

/-- Directory contents as an association list from relative file names to
raw file bytes; used to model `shutil.copytree` as wholesale duplication. -/
abbrev Dir : Type := List (List Char × List Char)

instance : DecidableEq Dir :=
  inferInstanceAs (DecidableEq (List (List Char × List Char)))

/-- Post-copy normalization of `copy_kernelsu_sources`
(src/apply_kernelsu.py:66-69): if the copied tree has a top-level `Kconfig`,
it is re-written decoded (universal newlines) with `newline="\n"`; all other
files keep their source bytes. -/
def normalizeKconfigEntry (d : Dir) : Dir :=
  d.map fun e => if e.1 = chars "Kconfig" then (e.1, normNl e.2) else e

/-- Filesystem state seen by the orchestrator: the module-source `kernel`
subdirectory, the destination driver directory `drivers/kernelsu`, and the
four kernel-tree files. -/
structure Sys where
  ksuKernel : Option Dir
  destDir : Option Dir
  tree : KTree
deriving DecidableEq

/-- Embedding of `copy_kernelsu_sources` (src/apply_kernelsu.py:55-69):
fatal if the source `kernel` subdirectory is absent; otherwise the
destination directory is replaced wholesale (any previous contents
discarded) by the source contents with the `Kconfig` line endings
normalized. -/
def copy_kernelsu_sources (ksuRepo : List Char) (s : Sys) : Except (List Char) Sys :=
  match s.ksuKernel with
  | none => .error (chars "KernelSU sources not found at: " ++ ksuRepo ++ chars "/kernel")
  | some d => .ok { s with destDir := some (normalizeKconfigEntry d) }

/-- Outcome of the external `git apply` subprocess: `none` for success,
`some (stdout, stderr)` for a `CalledProcessError` with its captured
output. -/
def RunResult : Type := Option (List Char × List Char)

/-- Embedding of `apply_optional_patch` (src/apply_kernelsu.py:72-93).
`patchFile` is `some path` when the patch file exists (the path already made
absolute by `resolve()`), `none` when it does not; `run` is the outcome of
the external patch application, consulted only when the file exists.  The
returned flag records whether the subprocess was invoked at all. -/
def apply_optional_patch (patchFile : Option (List Char)) (run : RunResult) :
    Except (List Char) Bool :=
  match patchFile with
  | none => .ok false
  | some p =>
    match run with
    | none => .ok true
    | some (out, err) =>
      .error (chars "Failed to apply build-fixes patch.\npatch: " ++ p ++
        chars "\nstdout:\n" ++ out ++ chars "\nstderr:\n" ++ err ++ chars "\n")

/-- Embedding of `main` (src/apply_kernelsu.py:127-144) after argument
parsing: apply the optional patch, install the module sources, then patch
the kernel tree, halting at the first error.  The result pairs the
filesystem state at the moment the run ends with the fatal message, if any;
`patchEffect` abstracts the (successful) external patch application's effect
on the tree. -/
def mainRun (kernelRepo ksuRepo : List Char) (patchFile : Option (List Char))
    (run : RunResult) (patchEffect : Sys → Sys) (s : Sys) :
    Sys × Option (List Char) :=
  match apply_optional_patch patchFile run with
  | .error e => (s, some e)
  | .ok invoked =>
    let s1 := if invoked then patchEffect s else s
    match copy_kernelsu_sources ksuRepo s1 with
    | .error e => (s1, some e)
    | .ok s2 =>
      match patch_kernel_tree kernelRepo s2.tree with
      | .error e => (s2, some e)
      | .ok t => ({ s2 with tree := t }, none)

example : objSearch (chars "obj-$(CONFIG_KSU) += kernelsu/\nx\n") = some 30 := by decide

example : objSearch (chars "obj-$(CONFIG_X)\n+= foo\nz\n") = some 22 := by decide

example : objSearch (chars "x\nobj-$(CONFIG_B) ) = no\nobj-$(CONFIG_C) += c\n") =
    some 45 := by decide

example :
    ensure_line_in_file (some objSearch) (chars "obj-$(CONFIG_KSU) += kernelsu/")
      (chars "obj-$(CONFIG_A) += a/\nobj-$(CONFIG_B) += b/\nother\n") =
    chars "obj-$(CONFIG_A) += a/\nobj-$(CONFIG_KSU) += kernelsu/\n\nobj-$(CONFIG_B) += b/\nother\n" := by
  decide

example :
    set_defconfig_symbol (chars "KSU") (chars "y") (chars "# CONFIG_KSU is not set\n") =
    chars "\nCONFIG_KSU=y\n" := by decide

example : removeMarkers (chars "KSU") (chars "#\n  \nCONFIG_KSU is not set\nx\n") =
    chars "x\n" := by decide

example : removeMarkers (chars "KSU") (chars "# CONFIG_KSU is not set  \n \t\n\nx\n") =
    chars "x\n" := by decide

example : removeMarkers (chars "KSU") (chars "# CONFIG_KSU is not set\n \n ") =
    chars "" := by decide

example : removeMarkers (chars "KSU") (chars "# CONFIG_KSU is not set x\n") =
    chars "# CONFIG_KSU is not set x\n" := by decide

example :
    set_defconfig_symbol (chars "KSU") (chars "y") (chars "CONFIG_KSU=n\nCONFIG_KSU=m\n") =
    chars "CONFIG_KSU=y\nCONFIG_KSU=y\n" := by decide

example : set_defconfig_symbol (chars "KSU") (chars "y") (chars "CONFIG_KSU=n\n") =
    chars "CONFIG_KSU=y\n" := by decide

example : ensure_line_in_file none (chars "L") (chars "a\n\n") = chars "a\n\nL\n" := by decide

example : ensure_line_in_file none (chars "L") (chars "") = chars "\nL\n" := by decide

example : replaceAll (chars "HOSTLDLIBS_dtc") (chars "HOSTLOADLIBES_dtc")
    (chars "x = $(HOSTLDLIBS_dtc)\n") = chars "x = $(HOSTLOADLIBES_dtc)\n" := by decide

example : normNl (chars "a\r\nb\rc\n") = chars "a\nb\nc\n" := by decide

instance : DecidableEq (Except (List Char) KTree) := fun a b =>
  match a, b with
  | .ok x, .ok y =>
    if h : x = y then isTrue (by rw [h]) else isFalse (by simp [h])
  | .error x, .error y =>
    if h : x = y then isTrue (by rw [h]) else isFalse (by simp [h])
  | .ok x, .error y => isFalse (by simp)
  | .error x, .ok y => isFalse (by simp)

instance : DecidableEq (Except (List Char) Sys) := fun a b =>
  match a, b with
  | .ok x, .ok y =>
    if h : x = y then isTrue (by rw [h]) else isFalse (by simp [h])
  | .error x, .error y =>
    if h : x = y then isTrue (by rw [h]) else isFalse (by simp [h])
  | .ok x, .error y => isFalse (by simp)
  | .error x, .ok y => isFalse (by simp)

/-- Modelled from the spec: the fallback of the Text-Line Mutator is said to
append "ensuring the file ends with exactly one newline before appending";
`trimNlEnd text ++ '\n' :: line ++ ['\n']` is the result that wording
prescribes (all trailing newlines collapsed to one). -/
def trimNlEnd (t : List Char) : List Char :=
  (t.reverse.dropWhile fun c => c = '\n').reverse

/-! ### Basic lemmas about the line decomposition -/

theorem splitLines_ne_nil (s : List Char) : splitLines s ≠ [] := by
  induction s with
  | nil => simp [splitLines]
  | cons c cs ih =>
    cases hcs : splitLines cs with
    | nil => exact absurd hcs ih
    | cons l ls =>
      by_cases hc : c = '\n' <;> simp [splitLines, hcs, hc]

theorem joinLines_cons_cons (c : Char) (l : List Char) (ls : List (List Char)) :
    joinLines ((c :: l) :: ls) = c :: joinLines (l :: ls) := by
  cases ls <;> rfl

theorem joinLines_cons_of_ne_nil (l : List Char) (ls : List (List Char)) (h : ls ≠ []) :
    joinLines (l :: ls) = l ++ '\n' :: joinLines ls := by
  cases ls with
  | nil => exact absurd rfl h
  | cons m ms => rfl

theorem joinLines_splitLines (s : List Char) : joinLines (splitLines s) = s := by
  induction s with
  | nil => rfl
  | cons c cs ih =>
    cases hcs : splitLines cs with
    | nil => exact absurd hcs (splitLines_ne_nil cs)
    | cons l ls =>
      rw [hcs] at ih
      by_cases hc : c = '\n'
      · subst hc
        have h1 : splitLines ('\n' :: cs) = [] :: l :: ls := by simp [splitLines, hcs]
        rw [h1, joinLines_cons_of_ne_nil _ _ (by simp)]
        simpa using ih
      · have h1 : splitLines (c :: cs) = (c :: l) :: ls := by simp [splitLines, hcs, hc]
        rw [h1, joinLines_cons_cons, ih]

theorem nl_notMem_of_mem_splitLines {s l : List Char} (h : l ∈ splitLines s) : '\n' ∉ l := by
  induction s generalizing l with
  | nil =>
    simp only [splitLines, List.mem_singleton] at h
    subst h; simp
  | cons c cs ih =>
    cases hcs : splitLines cs with
    | nil => exact absurd hcs (splitLines_ne_nil cs)
    | cons m ms =>
      simp only [splitLines, hcs] at h
      by_cases hc : c = '\n'
      · simp only [if_pos hc] at h
        rcases List.mem_cons.mp h with h1 | h1
        · subst h1; simp
        · exact ih (hcs ▸ h1)
      · simp only [if_neg hc] at h
        rcases List.mem_cons.mp h with h1 | h1
        · subst h1
          intro hmem
          rcases List.mem_cons.mp hmem with h2 | h2
          · exact hc h2.symm
          · exact ih (hcs ▸ List.mem_cons_self m ms) h2
        · exact ih (hcs ▸ List.mem_cons_of_mem m h1)

theorem splitLines_append_nl (x y : List Char) :
    splitLines (x ++ '\n' :: y) = splitLines x ++ splitLines y := by
  induction x with
  | nil =>
    cases h : splitLines y with
    | nil => exact absurd h (splitLines_ne_nil y)
    | cons l ls => simp [splitLines, h]
  | cons c x' ih =>
    cases h : splitLines x' with
    | nil => exact absurd h (splitLines_ne_nil x')
    | cons m ms =>
      rw [h] at ih
      by_cases hc : c = '\n' <;>
        simp [splitLines, ih, h, hc, List.cons_append]

theorem splitLines_of_nl_notMem {l : List Char} (h : '\n' ∉ l) : splitLines l = [l] := by
  induction l with
  | nil => rfl
  | cons c cs ih =>
    have hc : c ≠ '\n' := fun hcc => h (hcc ▸ List.mem_cons_self c cs)
    have hcs : '\n' ∉ cs := fun hm => h (List.mem_cons_of_mem c hm)
    simp [splitLines, ih hcs, hc]

theorem splitLines_joinLines {ls : List (List Char)} (hne : ls ≠ [])
    (hnl : ∀ l ∈ ls, '\n' ∉ l) : splitLines (joinLines ls) = ls := by
  induction ls with
  | nil => exact absurd rfl hne
  | cons l ms ih =>
    cases ms with
    | nil => exact splitLines_of_nl_notMem (hnl l (List.mem_cons_self _ _))
    | cons m ms' =>
      rw [joinLines_cons_of_ne_nil _ _ (by simp), splitLines_append_nl,
        splitLines_of_nl_notMem (hnl l (List.mem_cons_self _ _)),
        ih (by simp) fun a ha => hnl a (List.mem_cons_of_mem l ha)]
      rfl

theorem joinLines_append {ls ms : List (List Char)} (h1 : ls ≠ []) (h2 : ms ≠ []) :
    joinLines (ls ++ ms) = joinLines ls ++ '\n' :: joinLines ms := by
  induction ls with
  | nil => exact absurd rfl h1
  | cons l ls' ih =>
    cases ls' with
    | nil =>
      rw [List.singleton_append, joinLines_cons_of_ne_nil _ _ h2]
      rfl
    | cons a as =>
      rw [List.cons_append, joinLines_cons_of_ne_nil _ _ (by simp),
        joinLines_cons_of_ne_nil _ _ (by simp), ih (by simp), List.append_assoc]
      rfl

/-! ### Substring and occurrence-count lemmas -/

theorem containsSub_cons (c : Char) (t pat : List Char) :
    containsSub (c :: t) pat = (pat.isPrefixOf (c :: t) || containsSub t pat) := rfl

theorem countOcc_cons (c : Char) (t pat : List Char) :
    countOcc (c :: t) pat = (if pat.isPrefixOf (c :: t) then 1 else 0) + countOcc t pat := rfl

theorem countOcc_nil (pat : List Char) :
    countOcc [] pat = if pat.isPrefixOf [] then 1 else 0 := by
  simp only [countOcc]
  exact Nat.add_zero _

theorem containsSub_iff (text pat : List Char) : containsSub text pat = true ↔ pat <:+: text := by
  induction text with
  | nil =>
    simp only [containsSub, List.isPrefixOf_iff_prefix, List.infix_nil, Bool.or_false,
      List.prefix_nil]
  | cons c t ih =>
    rw [containsSub_cons, List.infix_cons_iff]
    simp [List.isPrefixOf_iff_prefix, ih]

theorem countOcc_eq_zero {text pat : List Char} : countOcc text pat = 0 ↔ ¬ pat <:+: text := by
  induction text with
  | nil =>
    rw [countOcc_nil]
    by_cases hp : pat = [] <;>
      simp [hp, List.infix_nil, List.isPrefixOf_iff_prefix]
  | cons c t ih =>
    rw [countOcc_cons, List.infix_cons_iff]
    by_cases hp : pat.isPrefixOf (c :: t)
    · simp [hp, List.isPrefixOf_iff_prefix.mp hp]
    · have hp' : ¬ pat <+: c :: t := fun h => hp (List.isPrefixOf_iff_prefix.mpr h)
      simp [hp, hp', ih]

theorem prefix_append_nl (pat xs ys : List Char) :
    '\n' ∉ pat → (pat <+: xs ++ '\n' :: ys ↔ pat <+: xs) := by
  induction pat generalizing xs with
  | nil => simp
  | cons p pt ih =>
    intro hnl
    have hp : p ≠ '\n' := fun h => hnl (h ▸ List.mem_cons_self _ _)
    have hpt : '\n' ∉ pt := fun h => hnl (List.mem_cons_of_mem _ h)
    cases xs with
    | nil => simp [List.cons_prefix_cons, hp]
    | cons x xt => simp [List.cons_prefix_cons, ih xt hpt]

theorem countOcc_append_nl {pat : List Char} (hnl : '\n' ∉ pat) (hne : pat ≠ [])
    (xs ys : List Char) :
    countOcc (xs ++ '\n' :: ys) pat = countOcc xs pat + countOcc ys pat := by
  induction xs with
  | nil =>
    have h1 : ¬ pat <+: '\n' :: ys := by
      cases pat with
      | nil => exact absurd rfl hne
      | cons p pt =>
        intro hcp
        exact hnl ((List.cons_prefix_cons.mp hcp).1 ▸ List.mem_cons_self _ _)
    have h2 : ¬ pat.isPrefixOf ('\n' :: ys) := fun h =>
      h1 (List.isPrefixOf_iff_prefix.mp h)
    have h3 : ¬ pat.isPrefixOf ([] : List Char) := fun h => by
      have := List.prefix_nil.mp (List.isPrefixOf_iff_prefix.mp h)
      exact hne this
    rw [List.nil_append, countOcc_cons, countOcc_nil]
    simp [h2, h3]
  | cons x xt ih =>
    have hpa := prefix_append_nl pat (x :: xt) ys hnl
    rw [List.cons_append, countOcc_cons, countOcc_cons, ih]
    by_cases hp : pat.isPrefixOf (x :: xt)
    · have : pat.isPrefixOf (x :: xt ++ '\n' :: ys) := by
        rw [List.isPrefixOf_iff_prefix]
        rw [List.isPrefixOf_iff_prefix] at hp
        simpa [List.cons_append] using hpa.mpr hp
      simp only [List.cons_append] at this
      simp [this, hp]
      omega
    · have : ¬ pat.isPrefixOf (x :: xt ++ '\n' :: ys) := fun h => by
        rw [List.isPrefixOf_iff_prefix] at h hp
        simp only [List.cons_append] at h
        exact hp (hpa.mp h)
      simp only [List.cons_append] at this
      simp [this, hp]

theorem countOcc_zero_of_length_lt {text pat : List Char} (h : text.length < pat.length) :
    countOcc text pat = 0 := by
  induction text with
  | nil =>
    rw [countOcc_nil]
    have : ¬ pat.isPrefixOf ([] : List Char) := fun hp => by
      have h2 := (List.isPrefixOf_iff_prefix.mp hp).length_le
      simp only [List.length_nil] at h h2
      omega
    simp [this]
  | cons c t ih =>
    rw [countOcc_cons]
    have h1 : ¬ pat.isPrefixOf (c :: t) := fun hp => by
      have h2 := (List.isPrefixOf_iff_prefix.mp hp).length_le
      simp only [List.length_cons] at h h2
      omega
    have h2 : t.length < pat.length := by
      simp only [List.length_cons] at h
      omega
    simp [h1, ih h2]

theorem countOcc_self {pat : List Char} (hne : pat ≠ []) : countOcc pat pat = 1 := by
  cases pat with
  | nil => exact absurd rfl hne
  | cons p pt =>
    rw [countOcc_cons]
    have h1 : (p :: pt).isPrefixOf (p :: pt) := by
      rw [List.isPrefixOf_iff_prefix]
    have h2 : countOcc pt (p :: pt) = 0 :=
      countOcc_zero_of_length_lt (by simp)
    simp [h1, h2]

theorem countOcc_zero_of_infix {text u pat : List Char} (hu : u <:+: text)
    (h : ¬ pat <:+: text) : countOcc u pat = 0 :=
  countOcc_eq_zero.mpr fun hp => h (hp.trans hu)

/-! ### Lemmas about universal-newline decoding -/

theorem normNl_no_cr (s : List Char) : '\r' ∉ normNl s := by
  induction s using normNl.induct with
  | case1 => simp [normNl]
  | case2 cs ih => simp [normNl]; exact ih
  | case3 cs h ih => simp [normNl]; exact ih
  | case4 c cs h1 h2 ih =>
    simp [normNl, h1, h2]
    exact ⟨fun h => h2 h.symm, ih⟩

theorem normNl_eq_self {s : List Char} (h : '\r' ∉ s) : normNl s = s := by
  induction s using normNl.induct with
  | case1 => rfl
  | case2 cs ih => exact absurd (List.mem_cons_self _ _) h
  | case3 cs h1 ih => exact absurd (List.mem_cons_self _ _) h
  | case4 c cs h1 h2 ih =>
    have hc : c ≠ '\r' := fun hcc => h2 hcc
    have hcs : '\r' ∉ cs := fun hm => h (List.mem_cons_of_mem c hm)
    simp [normNl, h1, h2, ih hcs]

/-! ### Membership lemmas used to track character provenance -/

theorem mem_of_mem_splitLines {s l : List Char} {c : Char} (hl : l ∈ splitLines s)
    (hc : c ∈ l) : c ∈ s := by
  induction s generalizing l with
  | nil =>
    simp only [splitLines, List.mem_singleton] at hl
    subst hl
    exact absurd hc (List.not_mem_nil c)
  | cons a cs ih =>
    cases hcs : splitLines cs with
    | nil => exact absurd hcs (splitLines_ne_nil cs)
    | cons m ms =>
      simp only [splitLines, hcs] at hl
      by_cases ha : a = '\n'
      · simp only [if_pos ha] at hl
        rcases List.mem_cons.mp hl with h1 | h1
        · subst h1; exact absurd hc (List.not_mem_nil c)
        · exact List.mem_cons_of_mem a (ih (hcs ▸ h1) hc)
      · simp only [if_neg ha] at hl
        rcases List.mem_cons.mp hl with h1 | h1
        · subst h1
          rcases List.mem_cons.mp hc with h2 | h2
          · exact h2 ▸ List.mem_cons_self a cs
          · exact List.mem_cons_of_mem a (ih (hcs ▸ List.mem_cons_self m ms) h2)
        · exact List.mem_cons_of_mem a (ih (hcs ▸ List.mem_cons_of_mem m h1) hc)

theorem mem_joinLines {ls : List (List Char)} {c : Char} (h : c ∈ joinLines ls) :
    c = '\n' ∨ ∃ l ∈ ls, c ∈ l := by
  induction ls with
  | nil => exact absurd h (List.not_mem_nil c)
  | cons l ms ih =>
    cases ms with
    | nil => exact Or.inr ⟨l, List.mem_cons_self _ _, h⟩
    | cons m ms' =>
      rw [joinLines_cons_of_ne_nil _ _ (by simp)] at h
      rcases List.mem_append.mp h with h1 | h1
      · exact Or.inr ⟨l, List.mem_cons_self _ _, h1⟩
      · rcases List.mem_cons.mp h1 with h2 | h2
        · exact Or.inl h2
        · rcases ih h2 with h3 | ⟨a, ha, hca⟩
          · exact Or.inl h3
          · exact Or.inr ⟨a, List.mem_cons_of_mem l ha, hca⟩

/-! ### Structure of the anchored insertion -/

theorem anchorScan_pos {s : List Char} {n : Nat} (h : anchorScan s = some n) : 13 ≤ n := by
  rw [anchorScan] at h
  by_cases hp : (chars "obj-$(CONFIG_").isPrefixOf s = true
  · rw [if_pos hp] at h
    rcases Option.map_eq_some'.mp h with ⟨x, _, hx⟩
    omega
  · rw [if_neg hp] at h
    cases h

theorem anchorScan_none_of_not_prefix {a : List Char} (s : List Char)
    (hp : (chars "obj-$(CONFIG_").isPrefixOf a = false) :
    anchorScan (a ++ '\n' :: s) = none := by
  have hcond : (chars "obj-$(CONFIG_").isPrefixOf (a ++ '\n' :: s) = false := by
    cases hb : (chars "obj-$(CONFIG_").isPrefixOf (a ++ '\n' :: s)
    · rfl
    · have h1 := (prefix_append_nl (chars "obj-$(CONFIG_") a s (by decide)).mp
        (List.isPrefixOf_iff_prefix.mp hb)
      rw [List.isPrefixOf_iff_prefix.mpr h1] at hp
      cases hp
  rw [anchorScan, if_neg (by simp [hcond])]

theorem objSearchGo_fire {s : List Char} {n : Nat} (h : anchorScan s = some n) (acc : Nat) :
    objSearchGo true acc s = some (acc + n) := by
  cases s with
  | nil =>
    rw [show anchorScan [] = none from by decide] at h
    cases h
  | cons c t =>
    rw [objSearchGo, if_pos rfl, h]

theorem objSearchGo_false {a : List Char} (hnl : '\n' ∉ a) (s : List Char) (acc : Nat) :
    objSearchGo false acc (a ++ '\n' :: s) = objSearchGo true (acc + (a.length + 1)) s := by
  induction a generalizing acc with
  | nil =>
    rw [List.nil_append, objSearchGo, if_neg (by simp)]
    simp
  | cons c a' ih =>
    have hc : c ≠ '\n' := fun h => hnl (h ▸ List.mem_cons_self _ _)
    have ha' : '\n' ∉ a' := fun h => hnl (List.mem_cons_of_mem _ h)
    rw [List.cons_append, objSearchGo, if_neg (by simp),
      show (decide (c = '\n')) = false from by simp [hc], ih ha']
    have he : acc + 1 + (a'.length + 1) = acc + ((c :: a').length + 1) := by
      simp only [List.length_cons]
      omega
    rw [he]

theorem objSearchGo_skip {a : List Char} (hnl : '\n' ∉ a)
    (hp : (chars "obj-$(CONFIG_").isPrefixOf a = false) (s : List Char) (acc : Nat) :
    objSearchGo true acc (a ++ '\n' :: s) = objSearchGo true (acc + (a.length + 1)) s := by
  have hscan := anchorScan_none_of_not_prefix s hp
  cases a with
  | nil =>
    rw [List.nil_append] at hscan ⊢
    rw [objSearchGo, if_pos rfl, hscan]
    show objSearchGo (decide ('\n' = '\n')) (acc + 1) s = _
    rw [show (decide ('\n' = '\n')) = true from by decide]
    simp
  | cons c a' =>
    have hc : c ≠ '\n' := fun h => hnl (h ▸ List.mem_cons_self _ _)
    have ha' : '\n' ∉ a' := fun h => hnl (List.mem_cons_of_mem _ h)
    rw [List.cons_append] at hscan ⊢
    rw [objSearchGo, if_pos rfl, hscan]
    show objSearchGo (decide (c = '\n')) (acc + 1) (a' ++ '\n' :: s) = _
    rw [show (decide (c = '\n')) = false from by simp [hc], objSearchGo_false ha']
    have he : acc + 1 + (a'.length + 1) = acc + ((c :: a').length + 1) := by
      simp only [List.length_cons]
      omega
    rw [he]

theorem objSearchGo_skip_lines {A : List (List Char)} (hne : A ≠ [])
    (hA : ∀ a ∈ A, '\n' ∉ a ∧ (chars "obj-$(CONFIG_").isPrefixOf a = false)
    (s : List Char) (acc : Nat) :
    objSearchGo true acc (joinLines A ++ '\n' :: s) =
      objSearchGo true (acc + ((joinLines A).length + 1)) s := by
  induction A generalizing acc with
  | nil => exact absurd rfl hne
  | cons a A' ih =>
    rcases hA a (List.mem_cons_self _ _) with ⟨hnl, hp⟩
    cases A' with
    | nil =>
      have hJ : joinLines [a] = a := rfl
      rw [hJ, objSearchGo_skip hnl hp]
    | cons b B' =>
      have hJ : joinLines (a :: b :: B') = a ++ '\n' :: joinLines (b :: B') :=
        joinLines_cons_of_ne_nil _ _ (by simp)
      rw [hJ, List.append_assoc, List.cons_append, objSearchGo_skip hnl hp,
        ih (by simp) fun x hx => hA x (List.mem_cons_of_mem a hx)]
      have he : acc + (a.length + 1) + ((joinLines (b :: B')).length + 1) =
          acc + ((a ++ '\n' :: joinLines (b :: B')).length + 1) := by
        simp only [List.length_append, List.length_cons]
        omega
      rw [he]

theorem ensure_splice {search : Option (List Char → Option Nat)} {line U m V : List Char}
    (hf : (search.bind fun f => f (U ++ m ++ V)) = some (U.length + m.length))
    (hm : m ≠ []) (hmnl : '\n' ∉ m)
    (hV : V = [] ∨ ∃ r, V = '\n' :: r)
    (hc : containsSub (U ++ m ++ V) line = false) :
    ensure_line_in_file search line (U ++ m ++ V) =
      U ++ m ++ '\n' :: (line ++ '\n' :: V) := by
  have hmlen : 0 < m.length := List.length_pos.mpr hm
  have htake : (U ++ m ++ V).take (U.length + m.length) = U ++ m := by
    rw [← List.length_append U m]
    exact List.take_left _ _
  have hdrop : (U ++ m ++ V).drop (U.length + m.length) = V := by
    rw [← List.length_append U m]
    exact List.drop_left _ _
  obtain ⟨M, c, hmc⟩ : ∃ M c, m = M ++ [c] := by
    rcases List.eq_nil_or_concat m with h | ⟨M, c, h⟩
    · exact absurd h hm
    · exact ⟨M, c, by simpa [List.concat_eq_append] using h⟩
  have hcnl : c ≠ '\n' := fun h =>
    hmnl (hmc ▸ List.mem_append_right M (h ▸ List.mem_singleton_self c))
  have hgetpre : (U ++ m ++ V).getD (U.length + m.length - 1) ' ' = c := by
    have h1 : U.length + m.length - 1 < (U ++ m).length := by
      rw [List.length_append]; omega
    have h2 : U.length ≤ U.length + m.length - 1 := by omega
    rw [List.getD_eq_getElem?_getD, List.getElem?_append_left h1,
      List.getElem?_append_right h2]
    have h3 : U.length + m.length - 1 - U.length = M.length := by
      have : m.length = M.length + 1 := by rw [hmc]; simp
      omega
    rw [h3, hmc, List.getElem?_concat_length]
    simp
  have hprecond :
      (decide (0 < U.length + m.length) &&
        !((U ++ m ++ V).getD (U.length + m.length - 1) ' ' = '\n')) = true := by
    rw [hgetpre]
    simp [hcnl]
    omega
  rcases hV with hV | ⟨r, hV⟩
  · subst hV
    have hcond :
        (decide (U.length + m.length < (U ++ m ++ ([] : List Char)).length) &&
          !((U ++ m ++ ([] : List Char)).getD (U.length + m.length) ' ' = '\n')) = false := by
      have : (U ++ m ++ ([] : List Char)).length = U.length + m.length := by simp
      simp [this]
    simp only [ensure_line_in_file, hc, Bool.false_eq_true, if_false, hf, hcond, htake, hdrop]
    simp only [hprecond, if_true]
    simp [List.append_assoc]
  · subst hV
    have hgete : (U ++ m ++ '\n' :: r).getD (U.length + m.length) ' ' = '\n' := by
      have hge : (U ++ m).length ≤ U.length + m.length := by
        rw [List.length_append]
      rw [List.getD_eq_getElem?_getD, List.getElem?_append_right hge]
      have : U.length + m.length - (U ++ m).length = 0 := by
        rw [List.length_append]; omega
      rw [this]
      simp
    have hcond :
        (decide (U.length + m.length < (U ++ m ++ '\n' :: r).length) &&
          !((U ++ m ++ '\n' :: r).getD (U.length + m.length) ' ' = '\n')) = false := by
      rw [hgete]
      simp
    simp only [ensure_line_in_file, hc, Bool.false_eq_true, if_false, hf, hcond, htake, hdrop]
    simp only [hprecond, if_true]
    simp [List.append_assoc]

theorem ensure_fallback {search : Option (List Char → Option Nat)} {line text : List Char}
    (hc : containsSub text line = false)
    (hs : (search.bind fun f => f text) = none) :
    ensure_line_in_file search line text = appendLine line text := by
  simp only [ensure_line_in_file, hc, Bool.false_eq_true, if_false, hs]

theorem appendLine_lines {line : List Char} (t : List Char) (hnl : '\n' ∉ line) :
    splitLines (appendLine line t) =
      (if endsNl t then (splitLines t).dropLast else splitLines t) ++ [line, []] := by
  by_cases he : endsNl t = true
  · obtain ⟨T, hT⟩ : ∃ T, t = T ++ ['\n'] := by
      have h1 : t.getLast? = some '\n' := by
        have := he
        simp only [endsNl, beq_iff_eq] at this
        exact this
      exact List.getLast?_eq_some_iff.mp h1
    subst hT
    rw [appendLine]
    simp only [he, if_pos]
    have h2 : T ++ ['\n'] ++ line ++ ['\n'] = T ++ '\n' :: (line ++ '\n' :: []) := by
      simp [List.append_assoc]
    rw [h2, splitLines_append_nl]
    have h3 : splitLines (line ++ '\n' :: []) = [line, []] := by
      rw [splitLines_append_nl, splitLines_of_nl_notMem hnl]
      rfl
    rw [h3]
    have h4 : splitLines (T ++ ['\n']) = splitLines T ++ [[]] := by
      have : T ++ ['\n'] = T ++ '\n' :: [] := rfl
      rw [this, splitLines_append_nl]
      rfl
    rw [h4, List.dropLast_concat]
  · have he' : endsNl t = false := by
      cases h : endsNl t
      · rfl
      · exact absurd h he
    rw [appendLine]
    simp only [he', Bool.false_eq_true, if_false]
    have h2 : t ++ ['\n'] ++ line ++ ['\n'] = t ++ '\n' :: (line ++ '\n' :: []) := by
      simp [List.append_assoc]
    rw [h2, splitLines_append_nl]
    have h3 : splitLines (line ++ '\n' :: []) = [line, []] := by
      rw [splitLines_append_nl, splitLines_of_nl_notMem hnl]
      rfl
    rw [h3]

theorem line_infix_ensure (search : Option (List Char → Option Nat))
    (line text : List Char) : line <:+: ensure_line_in_file search line text := by
  by_cases hc : containsSub text line = true
  · rw [ensure_line_in_file, if_pos hc]
    exact (containsSub_iff text line).mp hc
  · have hc' : containsSub text line = false := by
      cases h : containsSub text line
      · rfl
      · exact absurd h hc
    cases hs : (search.bind fun f => f text) with
    | none =>
      rw [ensure_fallback hc' hs, appendLine]
      exact List.infix_append _ _ _
    | some e =>
      simp only [ensure_line_in_file, hc', Bool.false_eq_true, if_false, hs]
      refine ⟨List.take (if e < text.length && !(text.getD e ' ' = '\n') then findNl text e else e) text ++
        (if 0 < (if e < text.length && !(text.getD e ' ' = '\n') then findNl text e else e) &&
            !(text.getD ((if e < text.length && !(text.getD e ' ' = '\n') then findNl text e else e) - 1) ' ' = '\n')
          then ['\n'] else []),
        '\n' :: List.drop (if e < text.length && !(text.getD e ' ' = '\n') then findNl text e else e) text, ?_⟩
      simp [List.append_assoc]

theorem ensure_idem (search : Option (List Char → Option Nat)) (line text : List Char) :
    ensure_line_in_file search line (ensure_line_in_file search line text) =
      ensure_line_in_file search line text := by
  have h := line_infix_ensure search line text
  rw [ensure_line_in_file, if_pos ((containsSub_iff _ _).mpr h)]

/-! ### The inserted line occurs exactly once -/

theorem countOcc_nil_of_ne {line : List Char} (hne : line ≠ []) :
    countOcc ([] : List Char) line = 0 := by
  rw [countOcc_nil]
  have : ¬ line.isPrefixOf ([] : List Char) := fun h =>
    hne (List.prefix_nil.mp (List.isPrefixOf_iff_prefix.mp h))
  simp [this]

theorem countOcc_appendLine {line text : List Char} (hnl : '\n' ∉ line) (hne : line ≠ [])
    (hninf : ¬ line <:+: text) : countOcc (appendLine line text) line = 1 := by
  have h0 : countOcc text line = 0 := countOcc_eq_zero.mpr hninf
  rw [appendLine]
  by_cases he : endsNl text = true
  · obtain ⟨T, hT⟩ : ∃ T, text = T ++ ['\n'] := by
      have h1 : text.getLast? = some '\n' := by
        simpa [endsNl] using he
      exact List.getLast?_eq_some_iff.mp h1
    subst hT
    rw [if_pos he]
    have heq : T ++ ['\n'] ++ line ++ ['\n'] = T ++ '\n' :: (line ++ '\n' :: []) := by
      simp
    rw [heq, countOcc_append_nl hnl hne, countOcc_append_nl hnl hne, countOcc_self hne,
      countOcc_nil_of_ne hne]
    have hT0 : countOcc T line = 0 :=
      countOcc_zero_of_infix (List.prefix_append T ['\n']).isInfix hninf
    omega
  · rw [if_neg he]
    have heq : text ++ ['\n'] ++ line ++ ['\n'] = text ++ '\n' :: (line ++ '\n' :: []) := by
      simp
    rw [heq, countOcc_append_nl hnl hne, countOcc_append_nl hnl hne, countOcc_self hne,
      countOcc_nil_of_ne hne, h0]

theorem countOcc_insert_general (line text : List Char) (i : Nat) (hnl : '\n' ∉ line)
    (hne : line ≠ []) (hninf : ¬ line <:+: text) :
    countOcc (text.take i ++
      ((if 0 < i && !(text.getD (i - 1) ' ' = '\n') then ['\n'] else []) ++ line ++ ['\n']) ++
      text.drop i) line = 1 := by
  have htake0 : countOcc (text.take i) line = 0 :=
    countOcc_zero_of_infix (List.take_prefix i text).isInfix hninf
  have hdrop0 : countOcc (text.drop i) line = 0 :=
    countOcc_zero_of_infix (List.drop_suffix i text).isInfix hninf
  cases hpre : (decide (0 < i) && !(text.getD (i - 1) ' ' = '\n'))
  · by_cases hi0 : i = 0
    · subst hi0
      have heq : text.take 0 ++ (([] : List Char) ++ line ++ ['\n']) ++ text.drop 0 =
          line ++ '\n' :: text := by
        simp
      rw [if_neg (by simp), heq, countOcc_append_nl hnl hne, countOcc_self hne,
        countOcc_eq_zero.mpr hninf]
    · have hi : 0 < i := Nat.pos_of_ne_zero hi0
      have hget : text.getD (i - 1) ' ' = '\n' := by
        have hdec : decide (0 < i) = true := by simpa using hi
        rcases Bool.and_eq_false_iff.mp hpre with h | h
        · rw [hdec] at h; cases h
        · simpa using h
      have hlt : i - 1 < text.length := by
        by_contra hge
        rw [List.getD_eq_getElem?_getD, List.getElem?_eq_none (by omega)] at hget
        simp at hget
      have htk : text.take i = text.take (i - 1) ++ ['\n'] := by
        have h1 : i = (i - 1) + 1 := by omega
        rw [h1, List.take_succ]
        have h2 : text[i - 1]? = some '\n' := by
          rw [List.getD_eq_getElem?_getD, List.getElem?_eq_getElem hlt] at hget
          rw [List.getElem?_eq_getElem hlt]
          simpa using hget
        rw [h2]
        rfl
      have heq : text.take i ++ (([] : List Char) ++ line ++ ['\n']) ++ text.drop i =
          text.take (i - 1) ++ '\n' :: (line ++ '\n' :: text.drop i) := by
        rw [htk]
        simp
      rw [if_neg (by simp), heq, countOcc_append_nl hnl hne,
        countOcc_append_nl hnl hne, countOcc_self hne, hdrop0]
      have h3 : countOcc (text.take (i - 1)) line = 0 :=
        countOcc_zero_of_infix (List.take_prefix (i - 1) text).isInfix hninf
      omega
  · have heq : text.take i ++ (['\n'] ++ line ++ ['\n']) ++ text.drop i =
        text.take i ++ '\n' :: (line ++ '\n' :: text.drop i) := by
      simp
    rw [if_pos rfl, heq, countOcc_append_nl hnl hne, countOcc_append_nl hnl hne,
      countOcc_self hne, htake0, hdrop0]

theorem ensure_count_one (search : Option (List Char → Option Nat)) (line text : List Char)
    (hnl : '\n' ∉ line) (hc : containsSub text line = false) :
    countOcc (ensure_line_in_file search line text) line = 1 := by
  have hne : line ≠ [] := fun h => by
    subst h
    rw [(containsSub_iff text []).mpr (List.nil_infix (l := text))] at hc
    cases hc
  have hninf : ¬ line <:+: text := fun h => by
    rw [(containsSub_iff _ _).mpr h] at hc
    cases hc
  cases hs : (search.bind fun f => f text) with
  | none =>
    rw [ensure_fallback hc hs]
    exact countOcc_appendLine hnl hne hninf
  | some e =>
    simp only [ensure_line_in_file, hc, Bool.false_eq_true, if_false, hs]
    exact countOcc_insert_general line text _ hnl hne hninf

theorem ensure_anchor_joined {line text : List Char}
    {A B : List (List Char)} {m : List Char}
    (hsplit : splitLines text = A ++ m :: B)
    (hA : ∀ a ∈ A, (chars "obj-$(CONFIG_").isPrefixOf a = false)
    (hm : anchorScan (joinLines (m :: B)) = some m.length)
    (hc : containsSub text line = false) :
    ensure_line_in_file (some objSearch) line text =
      joinLines (A ++ m :: line :: [] :: B) := by
  have hmne : m ≠ [] := by
    intro h
    have := anchorScan_pos hm
    rw [h] at this
    simp at this
  have hmem : ∀ l ∈ A ++ m :: B, '\n' ∉ l := fun l hl =>
    nl_notMem_of_mem_splitLines (hsplit ▸ hl)
  have hmnl : '\n' ∉ m := hmem m (List.mem_append_right A (List.mem_cons_self _ _))
  have htext : text = joinLines (A ++ m :: B) := by
    rw [← hsplit, joinLines_splitLines]
  rcases hAe : A with _ | ⟨a, A'⟩
  · subst hAe
    rcases hBe : B with _ | ⟨b, B'⟩
    · subst hBe
      have hk : text = [] ++ m ++ [] := by simpa [joinLines] using htext
      have hm' : anchorScan ([] ++ m ++ []) = some m.length := by
        have hJ : joinLines [m] = m := rfl
        rw [hJ] at hm
        simpa using hm
      have hf : ((some objSearch).bind fun f => f ([] ++ m ++ [])) =
          some (([] : List Char).length + m.length) := by
        show objSearch ([] ++ m ++ []) = _
        rw [objSearch, objSearchGo_fire hm']
        simp
      rw [hk]
      rw [ensure_splice hf hmne hmnl (Or.inl rfl) (hk ▸ hc)]
      simp [joinLines]
    · subst hBe
      have hjB : joinLines (m :: b :: B') = m ++ '\n' :: joinLines (b :: B') :=
        joinLines_cons_of_ne_nil _ _ (by simp)
      have hk : text = [] ++ m ++ '\n' :: joinLines (b :: B') := by
        rw [htext]; simpa using hjB
      have hm' : anchorScan ([] ++ m ++ '\n' :: joinLines (b :: B')) = some m.length := by
        rw [hjB] at hm
        simpa using hm
      have hf : ((some objSearch).bind fun f =>
          f ([] ++ m ++ '\n' :: joinLines (b :: B'))) =
          some (([] : List Char).length + m.length) := by
        show objSearch ([] ++ m ++ '\n' :: joinLines (b :: B')) = _
        rw [objSearch, objSearchGo_fire hm']
        simp
      rw [hk]
      rw [ensure_splice hf hmne hmnl (Or.inr ⟨_, rfl⟩) (hk ▸ hc)]
      have hR : joinLines (m :: line :: [] :: b :: B') =
          m ++ '\n' :: (line ++ '\n' :: '\n' :: joinLines (b :: B')) := by
        rw [joinLines_cons_of_ne_nil m _ (by simp),
          joinLines_cons_of_ne_nil line _ (by simp),
          joinLines_cons_of_ne_nil ([] : List Char) _ (by simp)]
        simp
      simp [hR]
  · subst hAe
    have hAne : (a :: A') ≠ ([] : List (List Char)) := by simp
    have hApair : ∀ x ∈ a :: A', '\n' ∉ x ∧
        (chars "obj-$(CONFIG_").isPrefixOf x = false := fun x hx =>
      ⟨hmem x (List.mem_append_left _ hx), hA x hx⟩
    have hJ3 : joinLines [m, line, ([] : List Char)] =
        m ++ '\n' :: (line ++ '\n' :: []) := by
      rw [joinLines_cons_of_ne_nil m _ (by simp),
        joinLines_cons_of_ne_nil line _ (by simp)]
      simp [joinLines]
    rcases hBe : B with _ | ⟨b, B'⟩
    · subst hBe
      have hk : text = (joinLines (a :: A') ++ ['\n']) ++ m ++ [] := by
        rw [htext, joinLines_append hAne (by simp)]
        simp [joinLines]
      have hm' : anchorScan m = some m.length := by
        have hJ : joinLines [m] = m := rfl
        rw [hJ] at hm
        exact hm
      have hf : ((some objSearch).bind fun f =>
          f ((joinLines (a :: A') ++ ['\n']) ++ m ++ [])) =
          some ((joinLines (a :: A') ++ ['\n']).length + m.length) := by
        show objSearch ((joinLines (a :: A') ++ ['\n']) ++ m ++ []) = _
        have he : (joinLines (a :: A') ++ ['\n']) ++ m ++ [] =
            joinLines (a :: A') ++ '\n' :: m := by simp
        rw [objSearch, he, objSearchGo_skip_lines hAne hApair,
          objSearchGo_fire hm']
        have hl : (joinLines (a :: A') ++ ['\n']).length =
            (joinLines (a :: A')).length + 1 := by simp
        rw [hl]
        simp
      rw [hk]
      rw [ensure_splice hf hmne hmnl (Or.inl rfl) (hk ▸ hc)]
      have hR : joinLines ((a :: A') ++ [m, line, ([] : List Char)]) =
          joinLines (a :: A') ++ '\n' :: (m ++ '\n' :: (line ++ '\n' :: [])) := by
        rw [joinLines_append hAne (by simp), hJ3]
      rw [List.cons_append] at hR
      simp [hR]
    · subst hBe
      have hjB : joinLines (m :: b :: B') = m ++ '\n' :: joinLines (b :: B') :=
        joinLines_cons_of_ne_nil _ _ (by simp)
      have hk : text = (joinLines (a :: A') ++ ['\n']) ++ m ++
          '\n' :: joinLines (b :: B') := by
        rw [htext, joinLines_append hAne (by simp), hjB]
        simp
      have hm' : anchorScan (m ++ '\n' :: joinLines (b :: B')) = some m.length := by
        rw [hjB] at hm
        exact hm
      have hf : ((some objSearch).bind fun f =>
          f ((joinLines (a :: A') ++ ['\n']) ++ m ++ '\n' :: joinLines (b :: B'))) =
          some ((joinLines (a :: A') ++ ['\n']).length + m.length) := by
        show objSearch ((joinLines (a :: A') ++ ['\n']) ++ m ++
          '\n' :: joinLines (b :: B')) = _
        have he : (joinLines (a :: A') ++ ['\n']) ++ m ++ '\n' :: joinLines (b :: B') =
            joinLines (a :: A') ++ '\n' :: (m ++ '\n' :: joinLines (b :: B')) := by
          simp
        rw [objSearch, he, objSearchGo_skip_lines hAne hApair,
          objSearchGo_fire hm']
        have hl : (joinLines (a :: A') ++ ['\n']).length =
            (joinLines (a :: A')).length + 1 := by simp
        rw [hl]
        simp
      rw [hk]
      rw [ensure_splice hf hmne hmnl (Or.inr ⟨_, rfl⟩) (hk ▸ hc)]
      have hR : joinLines ((a :: A') ++ m :: line :: [] :: b :: B') =
          joinLines (a :: A') ++ '\n' ::
            (m ++ '\n' :: (line ++ '\n' :: '\n' :: joinLines (b :: B'))) := by
        rw [joinLines_append hAne (by simp),
          joinLines_cons_of_ne_nil m _ (by simp),
          joinLines_cons_of_ne_nil line _ (by simp),
          joinLines_cons_of_ne_nil ([] : List Char) _ (by simp)]
        simp
      rw [List.cons_append] at hR
      simp [hR]

/-! ### Claim C4: idempotence and no duplication of the line mutator -/

/-- C4: for every file text and literal (newline-free) line, a call of
`ensure_line_in_file` on a text already containing the line is a no-op, a
second call with the same line is always a no-op (idempotence), and when the
line was absent the text after two calls holds exactly one substring
occurrence of it — calling twice never yields two occurrences. -/
theorem C4_ensure_line_idempotent_no_dup (search : Option (List Char → Option Nat))
    (line text : List Char) (hnl : '\n' ∉ line) :
    (containsSub text line = true → ensure_line_in_file search line text = text) ∧
    ensure_line_in_file search line (ensure_line_in_file search line text) =
      ensure_line_in_file search line text ∧
    (containsSub text line = false →
      countOcc (ensure_line_in_file search line (ensure_line_in_file search line text))
        line = 1) := by
  refine ⟨fun h => by rw [ensure_line_in_file, if_pos h], ensure_idem _ _ _, fun h => ?_⟩
  rw [ensure_idem]
  exact ensure_count_one search line text hnl h

/-- C4 (witness): concrete instance of the statement. -/
theorem C4_witness :
    ensure_line_in_file none (chars "L") (ensure_line_in_file none (chars "L") (chars "a\n")) =
      ensure_line_in_file none (chars "L") (chars "a\n") ∧
    countOcc (ensure_line_in_file none (chars "L")
      (ensure_line_in_file none (chars "L") (chars "a\n"))) (chars "L") = 1 := by
  have h := C4_ensure_line_idempotent_no_dup none (chars "L") (chars "a\n") (by decide)
  exact ⟨h.2.1, h.2.2 (by decide)⟩

/-! ### Claim C9: the no-op path writes nothing -/

/-- C9: when the decoded text already contains the target line as a
substring, `ensure_line_in_file` returns before any write, so the raw
on-disk bytes — including their original line-ending convention — survive
unchanged. -/
theorem C9_noop_preserves_bytes (search : Option (List Char → Option Nat))
    (line raw : List Char) (h : containsSub (normNl raw) line = true) :
    ensureLineFile search line raw = raw := by
  rw [ensureLineFile]
  simp only [h, if_pos]

/-- C9 (witness): a CRLF file containing the line is preserved verbatim, and
its bytes indeed differ from their newline-normalized form. -/
theorem C9_witness :
    ensureLineFile (some objSearch) ksuObjLine
        (chars "obj-$(CONFIG_KSU) += kernelsu/\r\nx\r\n") =
      chars "obj-$(CONFIG_KSU) += kernelsu/\r\nx\r\n" ∧
    normNl (chars "obj-$(CONFIG_KSU) += kernelsu/\r\nx\r\n") ≠
      chars "obj-$(CONFIG_KSU) += kernelsu/\r\nx\r\n" := by
  refine ⟨C9_noop_preserves_bytes _ _ _ (by decide), by decide⟩

/-! ### Claim C8: the fallback append path -/

/-- C8 (counterexample): on the file `"a\n\n"` the fallback does not ensure
"exactly one newline before appending" — the two existing trailing newlines
are kept, so the result differs from the one the claim's wording
prescribes. -/
theorem C8_counterexample :
    ensure_line_in_file none (chars "L") (chars "a\n\n") = chars "a\n\nL\n" ∧
    ensure_line_in_file none (chars "L") (chars "a\n\n") ≠
      trimNlEnd (chars "a\n\n") ++ '\n' :: chars "L" ++ ['\n'] := by
  exact ⟨by decide, by decide⟩

/-- C8 (amended): in the fallback case (no anchor pattern, or the anchor
regex matching nowhere in the text) on a text not containing the line,
`ensure_line_in_file` appends the line as a new final newline-terminated
line, first adding a single newline only when the text does not already end
with one (existing trailing newlines are preserved, so the file ends with
at least one newline before the appended line, not exactly one). -/
theorem C8_fallback_appends (search : Option (List Char → Option Nat))
    (line text : List Char) (hnl : '\n' ∉ line)
    (hc : containsSub text line = false)
    (hs : search = none ∨ (search = some objSearch ∧ objSearch text = none)) :
    ensure_line_in_file search line text = appendLine line text ∧
    splitLines (ensure_line_in_file search line text) =
      (if endsNl text then (splitLines text).dropLast else splitLines text) ++ [line, []] ∧
    endsNl (ensure_line_in_file search line text) = true := by
  have hnone : (search.bind fun f => f text) = none := by
    rcases hs with h | ⟨hp, h0⟩
    · rw [h]; rfl
    · rw [hp]
      show objSearch text = none
      exact h0
  refine ⟨ensure_fallback hc hnone, ?_, ?_⟩
  · rw [ensure_fallback hc hnone]
    exact appendLine_lines text hnl
  · rw [ensure_fallback hc hnone, appendLine]
    have : (if endsNl text then text else text ++ ['\n']) ++ line ++ ['\n'] =
        ((if endsNl text then text else text ++ ['\n']) ++ line) ++ ['\n'] := by
      simp [List.append_assoc]
    rw [this]
    simp [endsNl, List.getLast?_concat]

/-- C8 (witness): concrete instance of the amended statement. -/
theorem C8_witness :
    ensure_line_in_file (some objSearch) (chars "L") (chars "x\n") =
      appendLine (chars "L") (chars "x\n") ∧
    splitLines (ensure_line_in_file (some objSearch) (chars "L") (chars "x\n")) =
      [chars "x", chars "L", []] := by
  have h := C8_fallback_appends (some objSearch) (chars "L") (chars "x\n")
    (by decide) (by decide)
    (Or.inr ⟨rfl, by decide⟩)
  refine ⟨h.1, ?_⟩
  rw [h.2.1]
  decide

/-! ### Claim C1: anchored insertion position -/

/-- C1 (counterexample): on a drivers build-file with three conditional-build
lines, the code (which uses `re.search`, i.e. the first match) does not
insert at the end of the last match: its output differs from the output of
the last-match insertion the claim describes, which is obtained by replacing
the search by `objSearchLast`. -/
theorem C1_counterexample :
    ensure_line_in_file (some objSearch) ksuObjLine
        (chars "obj-$(CONFIG_A) += a/\nobj-$(CONFIG_B) += b/\nobj-$(CONFIG_C) += c/\nother\n") =
      chars "obj-$(CONFIG_A) += a/\nobj-$(CONFIG_KSU) += kernelsu/\n\nobj-$(CONFIG_B) += b/\nobj-$(CONFIG_C) += c/\nother\n" ∧
    ensure_line_in_file (some objSearch) ksuObjLine
        (chars "obj-$(CONFIG_A) += a/\nobj-$(CONFIG_B) += b/\nobj-$(CONFIG_C) += c/\nother\n") ≠
      ensure_line_in_file (some objSearchLast) ksuObjLine
        (chars "obj-$(CONFIG_A) += a/\nobj-$(CONFIG_B) += b/\nobj-$(CONFIG_C) += c/\nother\n") := by
  exact ⟨by decide, by decide⟩

/-- C1 (amended): for a file whose line decomposition is `A ++ m :: B` where
no line of `A` starts with the literal `obj-$(CONFIG_` (so no match of the
anchor regex can begin in `A`, every match beginning at a line start with
that literal) and where the anchor match beginning at `m` ends at the end
of `m`, and which does not contain the new line, `ensure_line_in_file`
inserts the new line immediately after `m` — the end position of the first
match of the anchor pattern in document order, not the last — followed by
an empty separator line. -/
theorem C1_insert_after_first_match {text : List Char}
    {A B : List (List Char)} {m : List Char}
    (hsplit : splitLines text = A ++ m :: B)
    (hA : ∀ a ∈ A, (chars "obj-$(CONFIG_").isPrefixOf a = false)
    (hm : anchorScan (joinLines (m :: B)) = some m.length)
    (hc : containsSub text ksuObjLine = false) :
    splitLines (ensure_line_in_file (some objSearch) ksuObjLine text) =
      A ++ m :: ksuObjLine :: [] :: B := by
  rw [ensure_anchor_joined hsplit hA hm hc]
  have hmem : ∀ l ∈ A ++ m :: B, '\n' ∉ l := fun l hl =>
    nl_notMem_of_mem_splitLines (hsplit ▸ hl)
  refine splitLines_joinLines (by simp) ?_
  intro l hl
  rcases List.mem_append.mp hl with h1 | h1
  · exact hmem l (List.mem_append_left _ h1)
  · rcases List.mem_cons.mp h1 with h2 | h2
    · exact h2 ▸ hmem m (List.mem_append_right A (List.mem_cons_self _ _))
    · rcases List.mem_cons.mp h2 with h3 | h3
      · subst h3; decide
      · rcases List.mem_cons.mp h3 with h4 | h4
        · subst h4; simp
        · exact hmem l (List.mem_append_right A (List.mem_cons_of_mem m h4))

/-- C1 (witness): concrete instance of the amended statement. -/
theorem C1_witness :
    splitLines (ensure_line_in_file (some objSearch) ksuObjLine
        (chars "x\nobj-$(CONFIG_A) += a/\nobj-$(CONFIG_B) += b/\nother\n")) =
      [chars "x", chars "obj-$(CONFIG_A) += a/", ksuObjLine, [],
        chars "obj-$(CONFIG_B) += b/", chars "other", []] := by
  have h := @C1_insert_after_first_match
    (chars "x\nobj-$(CONFIG_A) += a/\nobj-$(CONFIG_B) += b/\nother\n")
    [chars "x"] [chars "obj-$(CONFIG_B) += b/", chars "other", []]
    (chars "obj-$(CONFIG_A) += a/")
    (by decide) (by decide) (by decide) (by decide)
  simpa using h

/-! ### Lemmas about the marker remover and the symbol setter -/

theorem marker_nil_false (sym : List Char) : is_not_set_marker sym [] = false := rfl

theorem marker_head_false {sym r : List Char} {c : Char} (hc : c ≠ '#') :
    is_not_set_marker sym (c :: r) = false := by
  simp [is_not_set_marker, hc]

theorem configAssign_eq (sym : List Char) :
    configAssign sym = 'C' :: (chars "ONFIG_" ++ sym ++ ['=']) := rfl

theorem configAssign_ne_nil (sym : List Char) : configAssign sym ≠ [] := by
  rw [configAssign_eq]
  simp

theorem prefix_head_C {sym l : List Char}
    (h : (configAssign sym).isPrefixOf l = true) : ∃ r, l = 'C' :: r := by
  rw [List.isPrefixOf_iff_prefix, configAssign_eq] at h
  cases l with
  | nil =>
    have := h.length_le
    simp at this
  | cons c r =>
    exact ⟨r, by rw [(List.cons_prefix_cons.mp h).1]⟩

theorem marker_of_prefix_false {sym sym2 l : List Char}
    (h : (configAssign sym).isPrefixOf l = true) :
    is_not_set_marker sym2 l = false := by
  obtain ⟨r, hr⟩ := prefix_head_C h
  rw [hr]
  exact marker_head_false (by decide)

theorem prefix_of_marker_false {sym sym2 l : List Char}
    (h : is_not_set_marker sym2 l = true) :
    (configAssign sym).isPrefixOf l = false := by
  cases hp : (configAssign sym).isPrefixOf l
  · rfl
  · rw [marker_of_prefix_false hp] at h
    cases h

theorem prefix_nil_false (sym : List Char) :
    (configAssign sym).isPrefixOf ([] : List Char) = false := by
  cases hp : (configAssign sym).isPrefixOf ([] : List Char)
  · rfl
  · exact absurd (List.prefix_nil.mp (List.isPrefixOf_iff_prefix.mp hp))
      (configAssign_ne_nil sym)

theorem configAssign_prefix_self (sym value : List Char) :
    (configAssign sym).isPrefixOf (configAssign sym ++ value) = true :=
  List.isPrefixOf_iff_prefix.mpr (List.prefix_append _ _)

theorem notMem_newLine {c : Char} {sym value : List Char} (h1 : c ∉ chars "CONFIG_=")
    (h2 : c ∉ sym) (h3 : c ∉ value) : c ∉ configAssign sym ++ value := by
  intro hmem
  have e1 : chars "CONFIG_" = ['C', 'O', 'N', 'F', 'I', 'G', '_'] := rfl
  have e2 : chars "CONFIG_=" = ['C', 'O', 'N', 'F', 'I', 'G', '_', '='] := rfl
  rw [configAssign, e1] at hmem
  rw [e2] at h1
  simp only [List.mem_append, List.mem_cons, List.mem_singleton,
    List.not_mem_nil] at hmem h1
  tauto

theorem afterToken_nil {tok : List Char} (h : tok ≠ []) :
    afterToken tok ([] : List Char) = none := by
  rw [afterToken, if_neg]
  intro hp
  exact h (List.prefix_nil.mp (List.isPrefixOf_iff_prefix.mp hp))

theorem afterToken_eq {tok s r : List Char} (h : afterToken tok s = some r) :
    s = tok ++ r := by
  rw [afterToken] at h
  by_cases hp : tok.isPrefixOf s = true
  · rw [if_pos hp] at h
    have hr : s.drop tok.length = r := by injection h
    obtain ⟨t, ht⟩ := List.isPrefixOf_iff_prefix.mp hp
    subst ht
    rw [List.drop_left] at hr
    rw [hr]
  · rw [if_neg hp] at h
    cases h

theorem afterToken_ext {tok x u : List Char} (h : afterToken tok x = some u)
    (y : List Char) : afterToken tok (x ++ y) = some (u ++ y) := by
  have hx := afterToken_eq h
  subst hx
  rw [List.append_assoc, afterToken,
    if_pos (List.isPrefixOf_iff_prefix.mpr (List.prefix_append _ _)), List.drop_left]

theorem dropWhile_ext {p : Char → Bool} {x : List Char} (h : ¬ x.dropWhile p = [])
    (y : List Char) : (x ++ y).dropWhile p = x.dropWhile p ++ y := by
  rw [List.dropWhile_append, if_neg]
  simpa [List.isEmpty_iff] using h

theorem ws1_eq {s r : List Char} (h : ws1 s = some r) :
    ∃ W, s = W ++ r ∧ W ≠ [] ∧ ∀ c ∈ W, pySpace c = true := by
  cases s with
  | nil => cases h
  | cons c cs =>
    rw [ws1] at h
    by_cases hc : pySpace c = true
    · rw [if_pos hc] at h
      have hr : cs.dropWhile pySpace = r := by injection h
      refine ⟨c :: cs.takeWhile pySpace, ?_, by simp, ?_⟩
      · rw [← hr, List.cons_append, List.takeWhile_append_dropWhile]
      · intro d hd
        rcases List.mem_cons.mp hd with h1 | h1
        · exact h1 ▸ hc
        · exact List.mem_takeWhile_imp h1
    · rw [if_neg hc] at h
      cases h

theorem ws1_ext {x u : List Char} (h : ws1 x = some u) (hu : u ≠ []) (y : List Char) :
    ws1 (x ++ y) = some (u ++ y) := by
  cases x with
  | nil => cases h
  | cons c cs =>
    rw [ws1] at h
    by_cases hc : pySpace c = true
    · rw [if_pos hc] at h
      have hcs : cs.dropWhile pySpace = u := by injection h
      rw [List.cons_append, ws1, if_pos hc, dropWhile_ext (by rw [hcs]; exact hu) y, hcs]
    · rw [if_neg hc] at h
      cases h

theorem afterLastNl_eq {l r : List Char} (h : afterLastNl l = some r) :
    ∃ P, l = P ++ '\n' :: r := by
  induction l generalizing r with
  | nil => cases h
  | cons c t ih =>
    cases ht : afterLastNl t with
    | some u =>
      have h2 : afterLastNl (c :: t) = some u := by rw [afterLastNl, ht]
      rw [h2] at h
      have hu : u = r := by injection h
      subst hu
      obtain ⟨P, hP⟩ := ih ht
      exact ⟨c :: P, by rw [hP]; rfl⟩
    | none =>
      have h2 : afterLastNl (c :: t) = if c = '\n' then some t else none := by
        rw [afterLastNl, ht]
      rw [h2] at h
      by_cases hc : c = '\n'
      · rw [if_pos hc] at h
        have ht2 : t = r := by injection h
        subst ht2
        exact ⟨[], by rw [hc, List.nil_append]⟩
      · rw [if_neg hc] at h
        cases h

theorem afterLastNl_of_mem {l : List Char} (h : '\n' ∈ l) :
    ∃ r, afterLastNl l = some r := by
  induction l with
  | nil => exact absurd h (List.not_mem_nil _)
  | cons c t ih =>
    cases ht : afterLastNl t with
    | some u => exact ⟨u, by rw [afterLastNl, ht]⟩
    | none =>
      have hc : c = '\n' := by
        rcases List.mem_cons.mp h with h1 | h1
        · exact h1.symm
        · obtain ⟨u, hu⟩ := ih h1
          rw [hu] at ht
          cases ht
      exact ⟨t, by rw [afterLastNl, ht, if_pos hc]⟩

theorem markerEnd_spec {s r : List Char} (h : markerEnd s = some r) :
    ∃ D, s = D ++ r ∧ (∀ c ∈ D, pySpace c = true) ∧ (r = [] ∨ ∃ E, D = E ++ ['\n']) := by
  rw [markerEnd] at h
  by_cases hd : s.dropWhile pySpace = []
  · rw [if_pos hd] at h
    have hr : ([] : List Char) = r := by injection h
    refine ⟨s, by rw [← hr]; simp, ?_, Or.inl hr.symm⟩
    intro c hc
    exact List.dropWhile_eq_nil_iff.mp hd c hc
  · rw [if_neg hd] at h
    cases ha : afterLastNl (s.takeWhile pySpace) with
    | none => rw [ha] at h; cases h
    | some u =>
      rw [ha] at h
      have hr : u ++ s.dropWhile pySpace = r := by injection h
      obtain ⟨P, hP⟩ := afterLastNl_eq ha
      have hs := List.takeWhile_append_dropWhile (p := pySpace) (l := s)
      refine ⟨P ++ ['\n'], ?_, ?_, Or.inr ⟨P, rfl⟩⟩
      · rw [← hr]
        conv_lhs => rw [← hs, hP]
        simp
      · intro c hc
        rcases List.mem_append.mp hc with h1 | h1
        · refine List.mem_takeWhile_imp (l := s) ?_
          rw [hP]
          exact List.mem_append_left _ h1
        · have : c = '\n' := by simpa using h1
          rw [this]
          decide

theorem alpha_of_ws {sym : List Char} {c : Char} (h : pySpace c = true) :
    markerAlpha sym c = true := by
  rw [markerAlpha, h]
  simp

theorem alpha_append {sym : List Char} {X Y : List Char}
    (hX : ∀ c ∈ X, markerAlpha sym c = true) (hY : ∀ c ∈ Y, markerAlpha sym c = true) :
    ∀ c ∈ X ++ Y, markerAlpha sym c = true := by
  intro c hc
  rcases List.mem_append.mp hc with h | h
  · exact hX c h
  · exact hY c h

theorem alpha_of_tok1 {sym : List Char} :
    ∀ c ∈ chars "CONFIG_" ++ sym, markerAlpha sym c = true := by
  intro c hc
  have hm : c ∈ chars "CONFIG_" ++ sym ++ chars "isnotset" := List.mem_append_left _ hc
  rw [markerAlpha]
  simp only [Bool.or_eq_true, decide_eq_true_eq]
  exact Or.inr hm

theorem alpha_of_small {sym tok : List Char}
    (hsub : ∀ c ∈ tok, c ∈ chars "isnotset") :
    ∀ c ∈ tok, markerAlpha sym c = true := by
  intro c hc
  have hm : c ∈ chars "CONFIG_" ++ sym ++ chars "isnotset" :=
    List.mem_append_right _ (hsub c hc)
  rw [markerAlpha]
  simp only [Bool.or_eq_true, decide_eq_true_eq]
  exact Or.inr hm

theorem markerTail_spec {sym r0 rest : List Char} (h : markerTail sym r0 = some rest) :
    ∃ D, r0 = D ++ rest ∧ ∀ c ∈ D, markerAlpha sym c = true := by
  rw [markerTail] at h
  simp only [Option.bind_eq_bind, Option.bind_eq_some] at h
  obtain ⟨r1, h1, r2, h2, r3, h3, r4, h4, r5, h5, r6, h6, h7⟩ := h
  have e1 : r0.dropWhile pySpace = (chars "CONFIG_" ++ sym) ++ r1 := afterToken_eq h1
  have e0 : r0 = r0.takeWhile pySpace ++ ((chars "CONFIG_" ++ sym) ++ r1) := by
    conv_lhs => rw [← List.takeWhile_append_dropWhile (p := pySpace) (l := r0)]
    rw [e1]
  obtain ⟨W1, e2, hW1ne, hW1⟩ := ws1_eq h2
  have e3 : r2 = chars "is" ++ r3 := afterToken_eq h3
  obtain ⟨W2, e4, hW2ne, hW2⟩ := ws1_eq h4
  have e5 : r4 = chars "not" ++ r5 := afterToken_eq h5
  obtain ⟨W3, e6, hW3ne, hW3⟩ := ws1_eq h6
  have e7 : r6 = chars "set" ++ rest := afterToken_eq h7
  refine ⟨r0.takeWhile pySpace ++ (chars "CONFIG_" ++ sym) ++ W1 ++ chars "is" ++ W2 ++
    chars "not" ++ W3 ++ chars "set", ?_, ?_⟩
  · conv_lhs => rw [e0]
    rw [e2, e3, e4, e5, e6, e7]
    simp [List.append_assoc]
  · have hTW : ∀ c ∈ r0.takeWhile pySpace, markerAlpha sym c = true := fun c hc =>
      alpha_of_ws (List.mem_takeWhile_imp hc)
    have hW1a : ∀ c ∈ W1, markerAlpha sym c = true := fun c hc => alpha_of_ws (hW1 c hc)
    have hW2a : ∀ c ∈ W2, markerAlpha sym c = true := fun c hc => alpha_of_ws (hW2 c hc)
    have hW3a : ∀ c ∈ W3, markerAlpha sym c = true := fun c hc => alpha_of_ws (hW3 c hc)
    have hIs : ∀ c ∈ chars "is", markerAlpha sym c = true := alpha_of_small (by decide)
    have hNot : ∀ c ∈ chars "not", markerAlpha sym c = true := alpha_of_small (by decide)
    have hSet : ∀ c ∈ chars "set", markerAlpha sym c = true := alpha_of_small (by decide)
    exact alpha_append (alpha_append (alpha_append (alpha_append (alpha_append
      (alpha_append (alpha_append hTW alpha_of_tok1) hW1a) hIs) hW2a) hNot) hW3a) hSet

theorem markerTail_ext {sym r0 rest : List Char} (h : markerTail sym r0 = some rest)
    (y : List Char) : markerTail sym (r0 ++ y) = some (rest ++ y) := by
  rw [markerTail] at h
  simp only [Option.bind_eq_bind, Option.bind_eq_some] at h
  obtain ⟨r1, h1, r2, h2, r3, h3, r4, h4, r5, h5, r6, h6, h7⟩ := h
  have hd0 : ¬ r0.dropWhile pySpace = [] := by
    intro h0
    rw [h0, afterToken_nil (by simp [chars])] at h1
    cases h1
  have hr2 : r2 ≠ [] := by
    intro h0
    rw [h0, afterToken_nil (by decide)] at h3
    cases h3
  have hr4 : r4 ≠ [] := by
    intro h0
    rw [h0, afterToken_nil (by decide)] at h5
    cases h5
  have hr6 : r6 ≠ [] := by
    intro h0
    rw [h0, afterToken_nil (by decide)] at h7
    cases h7
  have k0 : (r0 ++ y).dropWhile pySpace = r0.dropWhile pySpace ++ y := dropWhile_ext hd0 y
  have k1 := afterToken_ext h1 y
  have k2 := ws1_ext h2 hr2 y
  have k3 := afterToken_ext h3 y
  have k4 := ws1_ext h4 hr4 y
  have k5 := afterToken_ext h5 y
  have k6 := ws1_ext h6 hr6 y
  have k7 := afterToken_ext h7 y
  rw [markerTail]
  simp only [Option.bind_eq_bind]
  rw [k0, k1, Option.some_bind, k2, Option.some_bind, k3, Option.some_bind,
    k4, Option.some_bind, k5, Option.some_bind, k6, Option.some_bind, k7]

theorem markerMatch_spec {sym s r : List Char} (h : markerMatch sym s = some r) :
    ∃ D, s = D ++ r ∧ D ≠ [] ∧ (∀ c ∈ D, markerAlpha sym c = true) ∧
      (r = [] ∨ ∃ E, D = E ++ ['\n']) := by
  cases s with
  | nil => cases h
  | cons c r0 =>
    rw [markerMatch] at h
    by_cases hc : c = '#'
    · rw [if_pos hc] at h
      rcases Option.bind_eq_some.mp h with ⟨rest, hmt, hme⟩
      obtain ⟨D1, e1, hD1⟩ := markerTail_spec hmt
      obtain ⟨D2, e2, hD2ws, hD2end⟩ := markerEnd_spec hme
      refine ⟨c :: (D1 ++ D2), ?_, by simp, ?_, ?_⟩
      · rw [List.cons_append]
        rw [e1, e2]
        simp [List.append_assoc]
      · intro d hd
        rcases List.mem_cons.mp hd with h1 | h1
        · subst h1
          rw [hc, markerAlpha]
          simp
        · rcases List.mem_append.mp h1 with h2 | h2
          · exact hD1 d h2
          · exact alpha_of_ws (hD2ws d h2)
      · rcases hD2end with h1 | ⟨E, hE⟩
        · exact Or.inl h1
        · exact Or.inr ⟨c :: (D1 ++ E), by rw [hE]; simp⟩
    · rw [if_neg hc] at h
      cases h

theorem markerMatch_length {sym s r : List Char} (h : markerMatch sym s = some r) :
    r.length < s.length := by
  obtain ⟨D, hD, hne, -, -⟩ := markerMatch_spec h
  rw [hD, List.length_append]
  have := List.length_pos.mpr hne
  omega

theorem markerMatch_of_marker_bare {sym l : List Char}
    (hm : is_not_set_marker sym l = true) : markerMatch sym l ≠ none := by
  cases l with
  | nil => rw [is_not_set_marker] at hm; cases hm
  | cons c r0 =>
    rw [is_not_set_marker] at hm
    by_cases hc : c = '#'
    · rw [if_pos hc] at hm
      cases hmt : markerTail sym r0 with
      | none => rw [hmt] at hm; cases hm
      | some rest =>
        rw [hmt] at hm
        rw [markerMatch, if_pos hc, hmt]
        show markerEnd rest ≠ none
        rw [markerEnd, if_pos]
        · simp
        · rw [List.dropWhile_eq_nil_iff]
          intro x hx
          exact List.all_eq_true.mp hm x hx
    · rw [if_neg hc] at hm
      cases hm

theorem takeWhile_all_append {p : Char → Bool} {x : List Char}
    (hx : ∀ c ∈ x, p c = true) (y : List Char) :
    (x ++ y).takeWhile p = x ++ y.takeWhile p := by
  induction x with
  | nil => simp
  | cons c t ih =>
    rw [List.cons_append, List.takeWhile_cons, if_pos (hx c (List.mem_cons_self _ _)),
      ih fun d hd => hx d (List.mem_cons_of_mem c hd)]
    rfl

theorem markerMatch_of_marker {sym l : List Char}
    (hm : is_not_set_marker sym l = true) (t : List Char) :
    markerMatch sym (l ++ '\n' :: t) ≠ none := by
  cases l with
  | nil => rw [is_not_set_marker] at hm; cases hm
  | cons c r0 =>
    rw [is_not_set_marker] at hm
    by_cases hc : c = '#'
    · rw [if_pos hc] at hm
      cases hmt : markerTail sym r0 with
      | none => rw [hmt] at hm; cases hm
      | some rest =>
        rw [hmt] at hm
        have hall : ∀ x ∈ rest, pySpace x = true := fun x hx =>
          List.all_eq_true.mp hm x hx
        rw [List.cons_append, markerMatch, if_pos hc, markerTail_ext hmt ('\n' :: t)]
        show markerEnd (rest ++ '\n' :: t) ≠ none
        rw [markerEnd]
        by_cases hd : (rest ++ '\n' :: t).dropWhile pySpace = []
        · rw [if_pos hd]
          simp
        · rw [if_neg hd]
          have htw : (rest ++ '\n' :: t).takeWhile pySpace =
              rest ++ '\n' :: t.takeWhile pySpace := by
            rw [takeWhile_all_append hall, List.takeWhile_cons, if_pos (by decide)]
          have hmem : '\n' ∈ (rest ++ '\n' :: t).takeWhile pySpace := by
            rw [htw]
            exact List.mem_append_right _ (List.mem_cons_self _ _)
          obtain ⟨u, hu⟩ := afterLastNl_of_mem hmem
          rw [hu]
          simp
    · rw [if_neg hc] at hm
      cases hm

theorem marker_false_of_no_match {sym a t : List Char}
    (h : markerMatch sym (a ++ '\n' :: t) = none) : is_not_set_marker sym a = false := by
  cases hm : is_not_set_marker sym a
  · rfl
  · exact absurd h (markerMatch_of_marker hm t)

theorem marker_false_of_no_match_bare {sym s : List Char}
    (h : markerMatch sym s = none) : is_not_set_marker sym s = false := by
  cases hm : is_not_set_marker sym s
  · rfl
  · exact absurd h (markerMatch_of_marker_bare hm)

theorem removeMarkersGo_nil (sym : List Char) (fuel : Nat) (b : Bool) :
    removeMarkersGo sym fuel b [] = [] := by
  cases fuel <;> rfl

theorem removeMarkersGo_copy (sym : List Char) {s : List Char} (hnl : '\n' ∉ s) :
    ∀ fuel, s.length ≤ fuel → removeMarkersGo sym fuel false s = s := by
  induction s with
  | nil =>
    intro fuel _
    exact removeMarkersGo_nil sym fuel false
  | cons c t ih =>
    intro fuel hf
    have hc : c ≠ '\n' := fun h => hnl (h ▸ List.mem_cons_self _ _)
    cases fuel with
    | zero => simp at hf
    | succ f =>
      rw [removeMarkersGo, if_neg (by simp),
        show (decide (c = '\n')) = false from by simp [hc],
        ih (fun h => hnl (List.mem_cons_of_mem c h)) f
          (by simp only [List.length_cons] at hf; omega)]

theorem removeMarkersGo_copyline (sym : List Char) {a : List Char} (hnl : '\n' ∉ a) :
    ∀ (t : List Char) (fuel : Nat), a.length + 1 + t.length ≤ fuel →
      removeMarkersGo sym fuel false (a ++ '\n' :: t) =
        a ++ '\n' :: removeMarkersGo sym (fuel - (a.length + 1)) true t := by
  induction a with
  | nil =>
    intro t fuel hf
    cases fuel with
    | zero => omega
    | succ f =>
      rw [List.nil_append, removeMarkersGo, if_neg (by simp),
        show (decide ('\n' = '\n')) = true from by decide]
      simp
  | cons c a' ih =>
    intro t fuel hf
    have hc : c ≠ '\n' := fun h => hnl (h ▸ List.mem_cons_self _ _)
    have ha' : '\n' ∉ a' := fun h => hnl (List.mem_cons_of_mem c h)
    cases fuel with
    | zero => omega
    | succ f =>
      rw [List.cons_append, removeMarkersGo, if_neg (by simp),
        show (decide (c = '\n')) = false from by simp [hc],
        ih ha' t f (by simp only [List.length_cons] at hf; omega)]
      have he : f - (a'.length + 1) = f + 1 - ((c :: a').length + 1) := by
        simp only [List.length_cons]
        omega
      rw [he]
      rfl

theorem removeMarkersGo_keepline (sym : List Char) {a t : List Char} (hnl : '\n' ∉ a)
    (hnm : markerMatch sym (a ++ '\n' :: t) = none) {fuel : Nat}
    (hf : a.length + 1 + t.length ≤ fuel + 1) :
    removeMarkersGo sym (fuel + 1) true (a ++ '\n' :: t) =
      a ++ '\n' :: removeMarkersGo sym (fuel - a.length) true t := by
  cases a with
  | nil =>
    rw [List.nil_append] at hnm ⊢
    rw [removeMarkersGo, if_pos rfl, hnm]
    show '\n' :: removeMarkersGo sym fuel (decide ('\n' = '\n')) t = _
    rw [show (decide ('\n' = '\n')) = true from by decide]
    simp
  | cons c a' =>
    have hc : c ≠ '\n' := fun h => hnl (h ▸ List.mem_cons_self _ _)
    have ha' : '\n' ∉ a' := fun h => hnl (List.mem_cons_of_mem c h)
    rw [List.cons_append] at hnm ⊢
    rw [removeMarkersGo, if_pos rfl, hnm]
    show c :: removeMarkersGo sym fuel (decide (c = '\n')) (a' ++ '\n' :: t) = _
    rw [show (decide (c = '\n')) = false from by simp [hc],
      removeMarkersGo_copyline sym ha' t fuel
        (by simp only [List.length_cons] at hf; omega)]
    have he : fuel - (a'.length + 1) = fuel - (c :: a').length := by
      simp only [List.length_cons]
    rw [he]
    rfl

theorem removeMarkersGo_keeplast (sym : List Char) {s : List Char} (hnl : '\n' ∉ s)
    (hnm : markerMatch sym s = none) :
    ∀ fuel, s.length ≤ fuel → removeMarkersGo sym fuel true s = s := by
  intro fuel hf
  cases s with
  | nil => exact removeMarkersGo_nil sym fuel true
  | cons c t =>
    cases fuel with
    | zero => simp at hf
    | succ f =>
      have hc : c ≠ '\n' := fun h => hnl (h ▸ List.mem_cons_self _ _)
      rw [removeMarkersGo, if_pos rfl, hnm]
      show c :: removeMarkersGo sym f (decide (c = '\n')) t = c :: t
      rw [show (decide (c = '\n')) = false from by simp [hc],
        removeMarkersGo_copy sym (fun h => hnl (List.mem_cons_of_mem c h)) f
          (by simp only [List.length_cons] at hf; omega)]

theorem removeMarkersGo_del (sym : List Char) {s r : List Char}
    (h : markerMatch sym s = some r) (fuel : Nat) :
    removeMarkersGo sym (fuel + 1) true s = removeMarkersGo sym fuel true r := by
  cases s with
  | nil => cases h
  | cons c t =>
    rw [removeMarkersGo, if_pos rfl, h]

theorem firstLine_cases (s : List Char) :
    '\n' ∉ s ∨ ∃ a t, s = a ++ '\n' :: t ∧ '\n' ∉ a := by
  induction s with
  | nil => exact Or.inl (List.not_mem_nil _)
  | cons c s' ih =>
    by_cases hc : c = '\n'
    · exact Or.inr ⟨[], s', by rw [hc, List.nil_append], List.not_mem_nil _⟩
    · rcases ih with h | ⟨a, t, hs, ha⟩
      · refine Or.inl ?_
        intro hmem
        rcases List.mem_cons.mp hmem with h1 | h1
        · exact hc h1.symm
        · exact h h1
      · refine Or.inr ⟨c :: a, t, by rw [List.cons_append, ← hs], ?_⟩
        intro hmem
        rcases List.mem_cons.mp hmem with h1 | h1
        · exact hc h1.symm
        · exact ha h1

theorem splitLines_line_cons {a : List Char} (hnl : '\n' ∉ a) (t : List Char) :
    splitLines (a ++ '\n' :: t) = a :: splitLines t := by
  rw [splitLines_append_nl, splitLines_of_nl_notMem hnl]
  rfl

theorem removeMarkersGo_no_marker (sym : List Char) :
    ∀ (fuel : Nat) (s : List Char), s.length ≤ fuel →
      ∀ l ∈ splitLines (removeMarkersGo sym fuel true s),
        is_not_set_marker sym l = false := by
  intro fuel
  induction fuel using Nat.strong_induction_on with
  | _ fuel IH =>
    intro s hs l hl
    cases s with
    | nil =>
      rw [removeMarkersGo_nil,
        show splitLines ([] : List Char) = [[]] from rfl] at hl
      have hle : l = [] := by simpa using hl
      rw [hle]
      exact marker_nil_false sym
    | cons c t =>
      cases fuel with
      | zero => simp at hs
      | succ f =>
        rcases hmm : markerMatch sym (c :: t) with _ | r
        · rcases firstLine_cases (c :: t) with hnone | ⟨a, u, heq, ha⟩
          · rw [removeMarkersGo_keeplast sym hnone hmm (f + 1) hs] at hl
            rw [splitLines_of_nl_notMem hnone] at hl
            have hle : l = c :: t := by simpa using hl
            rw [hle]
            exact marker_false_of_no_match_bare hmm
          · rw [heq] at hl hmm hs
            rw [removeMarkersGo_keepline sym ha hmm
              (by simp only [List.length_append, List.length_cons] at hs; omega)] at hl
            rw [splitLines_line_cons ha] at hl
            rcases List.mem_cons.mp hl with h1 | h1
            · rw [h1]
              exact marker_false_of_no_match hmm
            · exact IH (f - a.length) (by omega) u
                (by simp only [List.length_append, List.length_cons] at hs; omega) l h1
        · rw [removeMarkersGo_del sym hmm f] at hl
          have hlen := markerMatch_length hmm
          exact IH f (by omega) r
            (by simp only [List.length_cons] at hlen hs; omega) l hl

theorem removeMarkersGo_mem_lines (sym : List Char) :
    ∀ (fuel : Nat) (s : List Char), s.length ≤ fuel →
      ∀ l ∈ splitLines (removeMarkersGo sym fuel true s),
        l ∈ splitLines s ∨ l = [] := by
  intro fuel
  induction fuel using Nat.strong_induction_on with
  | _ fuel IH =>
    intro s hs l hl
    cases s with
    | nil =>
      rw [removeMarkersGo_nil,
        show splitLines ([] : List Char) = [[]] from rfl] at hl
      exact Or.inr (by simpa using hl)
    | cons c t =>
      cases fuel with
      | zero => simp at hs
      | succ f =>
        rcases hmm : markerMatch sym (c :: t) with _ | r
        · rcases firstLine_cases (c :: t) with hnone | ⟨a, u, heq, ha⟩
          · rw [removeMarkersGo_keeplast sym hnone hmm (f + 1) hs] at hl
            exact Or.inl hl
          · rw [heq] at hl hmm hs ⊢
            rw [removeMarkersGo_keepline sym ha hmm
              (by simp only [List.length_append, List.length_cons] at hs; omega)] at hl
            rw [splitLines_line_cons ha] at hl ⊢
            rcases List.mem_cons.mp hl with h1 | h1
            · exact Or.inl (h1 ▸ List.mem_cons_self _ _)
            · rcases IH (f - a.length) (by omega) u
                (by simp only [List.length_append, List.length_cons] at hs; omega) l h1 with
                h2 | h2
              · exact Or.inl (List.mem_cons_of_mem a h2)
              · exact Or.inr h2
        · rw [removeMarkersGo_del sym hmm f] at hl
          obtain ⟨D, hD, hDne, hDalpha, hDend⟩ := markerMatch_spec hmm
          have hlen := markerMatch_length hmm
          rcases IH f (by omega) r
              (by simp only [List.length_cons] at hlen hs; omega) l hl with h2 | h2
          · rcases hDend with hrnil | ⟨E, hE⟩
            · subst hrnil
              rw [show splitLines ([] : List Char) = [[]] from rfl] at h2
              exact Or.inr (by simpa using h2)
            · refine Or.inl ?_
              have hD2 : c :: t = E ++ '\n' :: r := by
                rw [hD, hE]
                simp
              rw [hD2, splitLines_append_nl]
              exact List.mem_append_right _ h2
          · exact Or.inr h2

theorem removeMarkersGo_countP (sym : List Char) {q : List Char → Bool}
    (hq0 : q [] = false)
    (hq : ∀ l : List Char, (∀ c ∈ l, markerAlpha sym c = true) → q l = false) :
    ∀ (fuel : Nat) (s : List Char), s.length ≤ fuel →
      (splitLines (removeMarkersGo sym fuel true s)).countP q =
        (splitLines s).countP q := by
  intro fuel
  induction fuel using Nat.strong_induction_on with
  | _ fuel IH =>
    intro s hs
    cases s with
    | nil => rw [removeMarkersGo_nil]
    | cons c t =>
      cases fuel with
      | zero => simp at hs
      | succ f =>
        rcases hmm : markerMatch sym (c :: t) with _ | r
        · rcases firstLine_cases (c :: t) with hnone | ⟨a, u, heq, ha⟩
          · rw [removeMarkersGo_keeplast sym hnone hmm (f + 1) hs]
          · rw [heq] at hmm hs ⊢
            rw [removeMarkersGo_keepline sym ha hmm
              (by simp only [List.length_append, List.length_cons] at hs; omega),
              splitLines_line_cons ha, splitLines_line_cons ha,
              List.countP_cons, List.countP_cons,
              IH (f - a.length) (by omega) u
                (by simp only [List.length_append, List.length_cons] at hs; omega)]
        · rw [removeMarkersGo_del sym hmm f]
          obtain ⟨D, hD, hDne, hDalpha, hDend⟩ := markerMatch_spec hmm
          have hlen := markerMatch_length hmm
          rw [IH f (by omega) r (by simp only [List.length_cons] at hlen hs; omega)]
          rcases hDend with hrnil | ⟨E, hE⟩
          · subst hrnil
            have hD' : c :: t = D := by simpa using hD
            have h0 : (splitLines (c :: t)).countP q = 0 := by
              rw [List.countP_eq_zero]
              intro lx hlx
              have hql : q lx = false := hq lx fun d hd =>
                hDalpha d (hD' ▸ mem_of_mem_splitLines hlx hd)
              simp [hql]
            rw [h0, show splitLines ([] : List Char) = [[]] from rfl]
            simp [List.countP_cons, hq0]
          · have hD2 : c :: t = E ++ '\n' :: r := by
              rw [hD, hE]
              simp
            rw [hD2, splitLines_append_nl, List.countP_append]
            have h0 : (splitLines E).countP q = 0 := by
              rw [List.countP_eq_zero]
              intro lx hlx
              have hql : q lx = false := by
                refine hq lx fun d hd => hDalpha d ?_
                rw [hE]
                exact List.mem_append_left _ (mem_of_mem_splitLines hlx hd)
              simp [hql]
            rw [h0]
            omega

theorem removeMarkersGo_preserve (sym : List Char) {l : List Char}
    (hbad : ∃ c ∈ l, markerAlpha sym c = false) :
    ∀ (fuel : Nat) (s : List Char), s.length ≤ fuel → l ∈ splitLines s →
      l ∈ splitLines (removeMarkersGo sym fuel true s) := by
  intro fuel
  induction fuel using Nat.strong_induction_on with
  | _ fuel IH =>
    intro s hs hl
    cases s with
    | nil =>
      obtain ⟨c, hc, -⟩ := hbad
      rw [show splitLines ([] : List Char) = [[]] from rfl] at hl
      have hle : l = [] := by simpa using hl
      rw [hle] at hc
      exact absurd hc (List.not_mem_nil c)
    | cons c0 t =>
      cases fuel with
      | zero => simp at hs
      | succ f =>
        rcases hmm : markerMatch sym (c0 :: t) with _ | r
        · rcases firstLine_cases (c0 :: t) with hnone | ⟨a, u, heq, ha⟩
          · rw [removeMarkersGo_keeplast sym hnone hmm (f + 1) hs]
            exact hl
          · rw [heq] at hl hmm hs ⊢
            rw [removeMarkersGo_keepline sym ha hmm
              (by simp only [List.length_append, List.length_cons] at hs; omega),
              splitLines_line_cons ha]
            rw [splitLines_line_cons ha] at hl
            rcases List.mem_cons.mp hl with h1 | h1
            · exact h1 ▸ List.mem_cons_self _ _
            · exact List.mem_cons_of_mem a (IH (f - a.length) (by omega) u
                (by simp only [List.length_append, List.length_cons] at hs; omega) h1)
        · rw [removeMarkersGo_del sym hmm f]
          obtain ⟨D, hD, hDne, hDalpha, hDend⟩ := markerMatch_spec hmm
          have hlen := markerMatch_length hmm
          rcases hDend with hrnil | ⟨E, hE⟩
          · exfalso
            obtain ⟨c, hc, hca⟩ := hbad
            have hD' : c0 :: t = D := by
              rw [hD, hrnil]
              simp
            have hat : markerAlpha sym c = true :=
              hDalpha c (hD' ▸ mem_of_mem_splitLines hl hc)
            rw [hat] at hca
            cases hca
          · have hD2 : c0 :: t = E ++ '\n' :: r := by
              rw [hD, hE]
              simp
            rw [hD2, splitLines_append_nl] at hl
            rcases List.mem_append.mp hl with h1 | h1
            · exfalso
              obtain ⟨c, hc, hca⟩ := hbad
              have hat : markerAlpha sym c = true := by
                refine hDalpha c ?_
                rw [hE]
                exact List.mem_append_left _ (mem_of_mem_splitLines h1 hc)
              rw [hat] at hca
              cases hca
            · exact IH f (by omega) r
                (by simp only [List.length_cons] at hlen hs; omega) h1

theorem removeMarkers_no_marker (sym text : List Char) :
    ∀ l ∈ splitLines (removeMarkers sym text), is_not_set_marker sym l = false :=
  fun l hl => removeMarkersGo_no_marker sym text.length text (Nat.le_refl _) l hl

theorem removeMarkers_mem {sym text l : List Char}
    (hl : l ∈ splitLines (removeMarkers sym text)) : l ∈ splitLines text ∨ l = [] :=
  removeMarkersGo_mem_lines sym text.length text (Nat.le_refl _) l hl

theorem removeMarkers_countP (sym : List Char) {q : List Char → Bool}
    (hq0 : q [] = false)
    (hq : ∀ l : List Char, (∀ c ∈ l, markerAlpha sym c = true) → q l = false)
    (text : List Char) :
    (splitLines (removeMarkers sym text)).countP q = (splitLines text).countP q :=
  removeMarkersGo_countP sym hq0 hq text.length text (Nat.le_refl _)

theorem removeMarkers_preserve {sym l : List Char}
    (hbad : ∃ c ∈ l, markerAlpha sym c = false) {text : List Char}
    (hl : l ∈ splitLines text) : l ∈ splitLines (removeMarkers sym text) :=
  removeMarkersGo_preserve sym hbad text.length text (Nat.le_refl _) hl

theorem markerAlpha_eq_false {sym : List Char} (h : ('=' : Char) ∉ sym) :
    markerAlpha sym '=' = false := by
  have h1 : ('=' : Char) ∉ chars "CONFIG_" ++ sym ++ chars "isnotset" := by
    intro hmem
    rcases List.mem_append.mp hmem with h2 | h2
    · rcases List.mem_append.mp h2 with h3 | h3
      · exact absurd h3 (by decide)
      · exact h h3
    · exact absurd h2 (by decide)
  have h2 : decide (('=' : Char) ∈ chars "CONFIG_" ++ sym ++ chars "isnotset") = false := by
    simpa using h1
  rw [markerAlpha, h2]
  decide

theorem prefix_bad_char {sym l : List Char} (hse : ('=' : Char) ∉ sym)
    (hp : (configAssign sym).isPrefixOf l = true) :
    ∃ c ∈ l, markerAlpha sym c = false := by
  refine ⟨'=', ?_, markerAlpha_eq_false hse⟩
  have hsub := (List.isPrefixOf_iff_prefix.mp hp).subset
  refine hsub ?_
  rw [configAssign]
  exact List.mem_append_right _ (List.mem_singleton_self _)

theorem alpha_prefix_false {sym l : List Char} (hse : ('=' : Char) ∉ sym)
    (ha : ∀ c ∈ l, markerAlpha sym c = true) :
    (configAssign sym).isPrefixOf l = false := by
  cases hp : (configAssign sym).isPrefixOf l
  · rfl
  · obtain ⟨c, hc, hcf⟩ := prefix_bad_char hse hp
    rw [ha c hc] at hcf
    cases hcf

theorem count_map_replace {q : List Char → Bool} {c : List Char} (hc : q c = true)
    (ls : List (List Char)) :
    (ls.map fun l => if q l then c else l).count c = ls.countP q := by
  induction ls with
  | nil => rfl
  | cons a rest ih =>
    rw [List.map_cons, List.count_cons, List.countP_cons, ih]
    by_cases hq : q a = true
    · simp [hq]
    · have ha : a ≠ c := fun h => hq (h ▸ hc)
      simp [hq, ha]

theorem setsym_split (sym value text : List Char) (hsnl : '\n' ∉ sym)
    (hvnl : '\n' ∉ value) :
    splitLines (set_defconfig_symbol sym value text) =
      if (splitLines (removeMarkers sym text)).any
          (fun l => (configAssign sym).isPrefixOf l) then
        (splitLines (removeMarkers sym text)).map
          (fun l => if (configAssign sym).isPrefixOf l then configAssign sym ++ value else l)
      else
        (if endsNl (removeMarkers sym text)
          then (splitLines (removeMarkers sym text)).dropLast
          else splitLines (removeMarkers sym text)) ++ [configAssign sym ++ value, []] := by
  have hne2 : splitLines (removeMarkers sym text) ≠ [] := splitLines_ne_nil _
  have hnl2 : ∀ l ∈ splitLines (removeMarkers sym text), '\n' ∉ l := fun l hl =>
    nl_notMem_of_mem_splitLines hl
  have hnlNew : '\n' ∉ configAssign sym ++ value :=
    notMem_newLine (by decide) hsnl hvnl
  rw [set_defconfig_symbol]
  by_cases hany : (splitLines (removeMarkers sym text)).any
      (fun l => (configAssign sym).isPrefixOf l) = true
  · rw [if_pos hany, if_pos hany]
    refine splitLines_joinLines (by simpa using hne2) ?_
    intro l hl
    rcases List.mem_map.mp hl with ⟨a, ha, hfa⟩
    by_cases hp : (configAssign sym).isPrefixOf a = true
    · rw [if_pos hp] at hfa
      exact hfa ▸ hnlNew
    · rw [if_neg hp] at hfa
      exact hfa ▸ hnl2 a ha
  · rw [if_neg hany, if_neg hany]
    exact appendLine_lines _ hnlNew

theorem setsym_mem_cases {sym value text l : List Char} (hsnl : '\n' ∉ sym)
    (hvnl : '\n' ∉ value)
    (hl : l ∈ splitLines (set_defconfig_symbol sym value text)) :
    l = configAssign sym ++ value ∨ l = [] ∨
      (l ∈ splitLines text ∧ (configAssign sym).isPrefixOf l = false ∧
        is_not_set_marker sym l = false) := by
  rw [setsym_split sym value text hsnl hvnl] at hl
  have hsub : ∀ a, a ∈ splitLines (removeMarkers sym text) →
      a = [] ∨ (a ∈ splitLines text ∧ is_not_set_marker sym a = false) := by
    intro a ha
    rcases removeMarkers_mem ha with h | h
    · exact Or.inr ⟨h, removeMarkers_no_marker sym text a ha⟩
    · exact Or.inl h
  by_cases hany : (splitLines (removeMarkers sym text)).any
      (fun l => (configAssign sym).isPrefixOf l) = true
  · rw [if_pos hany] at hl
    rcases List.mem_map.mp hl with ⟨a, ha, hfa⟩
    by_cases hp : (configAssign sym).isPrefixOf a = true
    · rw [if_pos hp] at hfa
      exact Or.inl hfa.symm
    · rw [if_neg hp] at hfa
      subst hfa
      rcases hsub a ha with h | ⟨h1, h2⟩
      · exact Or.inr (Or.inl h)
      · exact Or.inr (Or.inr ⟨h1, Bool.eq_false_iff.mpr hp, h2⟩)
  · rw [if_neg hany] at hl
    have hnoP : ∀ a ∈ splitLines (removeMarkers sym text),
        (configAssign sym).isPrefixOf a = false := by
      intro a ha
      cases hp : (configAssign sym).isPrefixOf a
      · rfl
      · exact absurd (List.any_eq_true.mpr ⟨a, ha, hp⟩) hany
    rcases List.mem_append.mp hl with h | h
    · have hmem2 : l ∈ splitLines (removeMarkers sym text) := by
        by_cases he : endsNl (removeMarkers sym text) = true
        · rw [if_pos he] at h
          exact (List.dropLast_sublist _).subset h
        · rw [if_neg he] at h
          exact h
      rcases hsub l hmem2 with h2 | ⟨h2, h3⟩
      · exact Or.inr (Or.inl h2)
      · exact Or.inr (Or.inr ⟨h2, hnoP l hmem2, h3⟩)
    · rcases List.mem_cons.mp h with h2 | h2
      · exact Or.inl h2
      · simp only [List.mem_singleton] at h2
        exact Or.inr (Or.inl h2)

theorem setsym_newLine_mem (sym value text : List Char) (hsnl : '\n' ∉ sym)
    (hvnl : '\n' ∉ value) :
    configAssign sym ++ value ∈ splitLines (set_defconfig_symbol sym value text) := by
  rw [setsym_split sym value text hsnl hvnl]
  by_cases hany : (splitLines (removeMarkers sym text)).any
      (fun l => (configAssign sym).isPrefixOf l) = true
  · rw [if_pos hany]
    rcases List.any_eq_true.mp hany with ⟨a, ha, hp⟩
    exact List.mem_map.mpr ⟨a, ha, by rw [if_pos hp]⟩
  · rw [if_neg hany]
    exact List.mem_append_right _ (List.mem_cons_self _ _)

theorem setsym_count (sym value text : List Char) (hsnl : '\n' ∉ sym)
    (hvnl : '\n' ∉ value) (hse : ('=' : Char) ∉ sym) :
    (splitLines (set_defconfig_symbol sym value text)).count (configAssign sym ++ value) =
      if (splitLines text).countP (fun l => (configAssign sym).isPrefixOf l) = 0 then 1
      else (splitLines text).countP (fun l => (configAssign sym).isPrefixOf l) := by
  have hpres : (splitLines (removeMarkers sym text)).countP
      (fun l => (configAssign sym).isPrefixOf l) =
      (splitLines text).countP (fun l => (configAssign sym).isPrefixOf l) :=
    removeMarkers_countP sym (prefix_nil_false sym)
      (fun l hall => alpha_prefix_false hse hall) text
  rw [setsym_split sym value text hsnl hvnl]
  by_cases hany : (splitLines (removeMarkers sym text)).any
      (fun l => (configAssign sym).isPrefixOf l) = true
  · rw [if_pos hany, count_map_replace (configAssign_prefix_self sym value), hpres]
    have hne0 : (splitLines text).countP (fun l => (configAssign sym).isPrefixOf l) ≠ 0 := by
      rw [← hpres]
      intro h0
      rcases List.any_eq_true.mp hany with ⟨a, ha, hp⟩
      rw [List.countP_eq_zero] at h0
      exact h0 a ha hp
    rw [if_neg hne0]
  · rw [if_neg hany]
    have h0 : (splitLines text).countP (fun l => (configAssign sym).isPrefixOf l) = 0 := by
      rw [← hpres, List.countP_eq_zero]
      intro a ha hp
      exact absurd (List.any_eq_true.mpr ⟨a, ha, hp⟩) hany
    rw [h0, if_pos rfl, List.count_append]
    have hbase : ((if endsNl (removeMarkers sym text)
        then (splitLines (removeMarkers sym text)).dropLast
        else splitLines (removeMarkers sym text))).count (configAssign sym ++ value) = 0 := by
      rw [List.count_eq_zero]
      intro hmem
      have hmem2 : configAssign sym ++ value ∈ splitLines (removeMarkers sym text) := by
        by_cases he : endsNl (removeMarkers sym text) = true
        · rw [if_pos he] at hmem
          exact (List.dropLast_sublist _).subset hmem
        · rw [if_neg he] at hmem
          exact hmem
      exact absurd (List.any_eq_true.mpr
        ⟨_, hmem2, configAssign_prefix_self sym value⟩) hany
    rw [hbase]
    have hne2 : ¬ (([] : List Char) = configAssign sym ++ value) := fun h =>
      configAssign_ne_nil sym (List.append_eq_nil.mp h.symm).1
    simp [List.count_cons, hne2]
    exact fun h => absurd h (configAssign_ne_nil sym)

/-! ### Claim C3: the config-symbol setter -/

/-- C3 (counterexample): on a malformed defconfig with two assignment lines
for the same symbol, the global substitution rewrites both, so the result
holds the line `CONFIG_KSU=y` twice, not exactly once. -/
theorem C3_counterexample :
    (splitLines (set_defconfig_symbol (chars "KSU") (chars "y")
      (chars "CONFIG_KSU=n\nCONFIG_KSU=m\n"))).count (chars "CONFIG_KSU=y") = 2 := by
  decide

/-- C3 (amended): after `set_defconfig_symbol`, the file contains no
disabled-marker line for the symbol, contains the line
`CONFIG_<sym>=<value>`, every assignment line for the symbol equals that
line, and the line occurs exactly once provided the input contained at most
one assignment line for the symbol (the substitution is global, so k input
assignment lines yield k copies); in particular `CONFIG_KSU=n` or a
disabled-marker input yields exactly one `CONFIG_KSU=y` line. -/
theorem C3_set_symbol_normalizes (sym value text : List Char) (hsnl : '\n' ∉ sym)
    (hvnl : '\n' ∉ value) (hse : ('=' : Char) ∉ sym) :
    (∀ l ∈ splitLines (set_defconfig_symbol sym value text),
      is_not_set_marker sym l = false) ∧
    configAssign sym ++ value ∈ splitLines (set_defconfig_symbol sym value text) ∧
    (∀ l ∈ splitLines (set_defconfig_symbol sym value text),
      (configAssign sym).isPrefixOf l = true → l = configAssign sym ++ value) ∧
    ((splitLines text).countP (fun l => (configAssign sym).isPrefixOf l) ≤ 1 →
      (splitLines (set_defconfig_symbol sym value text)).count
        (configAssign sym ++ value) = 1) := by
  refine ⟨?_, setsym_newLine_mem sym value text hsnl hvnl, ?_, ?_⟩
  · intro l hl
    rcases setsym_mem_cases hsnl hvnl hl with h | h | ⟨_, _, h⟩
    · subst h
      exact marker_of_prefix_false (configAssign_prefix_self sym value)
    · subst h
      exact marker_nil_false sym
    · exact h
  · intro l hl hp
    rcases setsym_mem_cases hsnl hvnl hl with h | h | ⟨_, hnp, _⟩
    · exact h
    · subst h
      rw [prefix_nil_false sym] at hp
      cases hp
    · rw [hnp] at hp
      cases hp
  · intro hle
    rw [setsym_count sym value text hsnl hvnl hse]
    split
    · rfl
    · omega

/-- C3 (witness): instances of the amended statement on the spec's own
examples — an assignment input and a disabled-marker input. -/
theorem C3_witness :
    (splitLines (set_defconfig_symbol (chars "KSU") (chars "y")
      (chars "CONFIG_KSU=n\n"))).count (chars "CONFIG_KSU=y") = 1 ∧
    (∀ l ∈ splitLines (set_defconfig_symbol (chars "KSU") (chars "y")
      (chars "# CONFIG_KSU is not set\n")),
        is_not_set_marker (chars "KSU") l = false) ∧
    (splitLines (set_defconfig_symbol (chars "KSU") (chars "y")
      (chars "# CONFIG_KSU is not set\n"))).count (chars "CONFIG_KSU=y") = 1 := by
  have h1 := C3_set_symbol_normalizes (chars "KSU") (chars "y")
    (chars "CONFIG_KSU=n\n") (by decide) (by decide) (by decide)
  have h2 := C3_set_symbol_normalizes (chars "KSU") (chars "y")
    (chars "# CONFIG_KSU is not set\n") (by decide) (by decide) (by decide)
  have e : configAssign (chars "KSU") ++ chars "y" = chars "CONFIG_KSU=y" := by decide
  refine ⟨?_, h2.1, ?_⟩
  · rw [← e]
    exact h1.2.2.2 (by decide)
  · rw [← e]
    exact h2.2.2.2 (by decide)

/-! ### Idempotence infrastructure -/

theorem mem_appendLine {line t : List Char} {c : Char} (h : c ∈ appendLine line t) :
    c ∈ t ∨ c ∈ line ∨ c = '\n' := by
  rw [appendLine] at h
  rcases List.mem_append.mp h with h1 | h1
  · rcases List.mem_append.mp h1 with h2 | h2
    · by_cases he : endsNl t = true
      · rw [if_pos he] at h2
        exact Or.inl h2
      · rw [if_neg he] at h2
        rcases List.mem_append.mp h2 with h3 | h3
        · exact Or.inl h3
        · simp only [List.mem_singleton] at h3
          exact Or.inr (Or.inr h3)
    · exact Or.inr (Or.inl h2)
  · simp only [List.mem_singleton] at h1
    exact Or.inr (Or.inr h1)

theorem ensure_mem {search : Option (List Char → Option Nat)} {line text : List Char}
    {c : Char} (h : c ∈ ensure_line_in_file search line text) :
    c ∈ text ∨ c ∈ line ∨ c = '\n' := by
  rw [ensure_line_in_file] at h
  by_cases hc : containsSub text line = true
  · rw [if_pos hc] at h
    exact Or.inl h
  · rw [if_neg hc] at h
    cases hs : (search.bind fun f => f text) with
    | none =>
      rw [hs] at h
      exact mem_appendLine h
    | some e =>
      rw [hs] at h
      simp only [List.mem_append, List.mem_singleton] at h
      rcases h with (h1 | ((h2 | h2) | h2)) | h1
      · exact Or.inl (List.mem_of_mem_take h1)
      · by_cases hP : (0 < (if e < text.length && !(text.getD e ' ' = '\n') then
            findNl text e else e) &&
            !(text.getD ((if e < text.length && !(text.getD e ' ' = '\n') then
              findNl text e else e) - 1) ' ' = '\n')) = true
        · rw [if_pos hP] at h2
          simp only [List.mem_singleton] at h2
          exact Or.inr (Or.inr h2)
        · rw [if_neg hP] at h2
          exact absurd h2 (List.not_mem_nil c)
      · exact Or.inr (Or.inl h2)
      · exact Or.inr (Or.inr h2)
      · exact Or.inl (List.mem_of_mem_drop h1)

theorem ensure_no_cr {search : Option (List Char → Option Nat)} {line text : List Char}
    (hl : '\r' ∉ line) (ht : '\r' ∉ text) :
    '\r' ∉ ensure_line_in_file search line text := by
  intro hmem
  rcases ensure_mem hmem with h | h | h
  · exact ht h
  · exact hl h
  · exact absurd h (by decide)

theorem ensureLineFile_idem (search : Option (List Char → Option Nat))
    (line raw : List Char) (hl : '\r' ∉ line) :
    ensureLineFile search line (ensureLineFile search line raw) =
      ensureLineFile search line raw := by
  by_cases hc : containsSub (normNl raw) line = true
  · have h1 : ensureLineFile search line raw = raw := by
      rw [ensureLineFile]
      simp only [hc, if_pos]
    rw [h1]
    exact h1
  · have h1 : ensureLineFile search line raw =
        ensure_line_in_file search line (normNl raw) := by
      rw [ensureLineFile]
      simp only [hc, Bool.false_eq_true, if_false]
    rw [h1]
    have hocr : '\r' ∉ ensure_line_in_file search line (normNl raw) :=
      ensure_no_cr hl (normNl_no_cr raw)
    have hn : normNl (ensure_line_in_file search line (normNl raw)) =
        ensure_line_in_file search line (normNl raw) := normNl_eq_self hocr
    rw [ensureLineFile, hn,
      if_pos ((containsSub_iff _ _).mpr (line_infix_ensure search line (normNl raw)))]

theorem replaceAllGo_mem {pat repl s : List Char} {k : Nat} {c : Char}
    (h : c ∈ replaceAllGo pat repl s k) : c ∈ s ∨ c ∈ repl := by
  induction s generalizing k with
  | nil =>
    rw [replaceAllGo] at h
    exact absurd h (List.not_mem_nil c)
  | cons a cs ih =>
    cases k with
    | succ n =>
      rw [replaceAllGo] at h
      rcases ih h with h1 | h1
      · exact Or.inl (List.mem_cons_of_mem a h1)
      · exact Or.inr h1
    | zero =>
      rw [replaceAllGo] at h
      split at h
      · rcases List.mem_append.mp h with h1 | h1
        · exact Or.inr h1
        · rcases ih h1 with h2 | h2
          · exact Or.inl (List.mem_cons_of_mem a h2)
          · exact Or.inr h2
      · rcases List.mem_cons.mp h with h1 | h1
        · exact Or.inl (h1 ▸ List.mem_cons_self a cs)
        · rcases ih h1 with h2 | h2
          · exact Or.inl (List.mem_cons_of_mem a h2)
          · exact Or.inr h2

theorem replaceAll_infix_repl {pat repl s : List Char} (h : containsSub s pat = true)
    (hne : pat ≠ []) : repl <:+: replaceAllGo pat repl s 0 := by
  induction s with
  | nil =>
    rw [containsSub] at h
    simp only [Bool.or_false] at h
    exact absurd (List.prefix_nil.mp (List.isPrefixOf_iff_prefix.mp h)) hne
  | cons a cs ih =>
    rw [replaceAllGo]
    by_cases hp : (decide ¬pat = [] && pat.isPrefixOf (a :: cs)) = true
    · rw [if_pos hp]
      exact (List.prefix_append repl _).isInfix
    · rw [if_neg hp]
      have hnp : pat.isPrefixOf (a :: cs) = false := by
        cases hb : pat.isPrefixOf (a :: cs)
        · rfl
        · exact absurd (by simp [hne, hb]) hp
      have h2 : containsSub cs pat = true := by
        rw [containsSub_cons, hnp] at h
        simpa using h
      exact List.infix_cons_iff.mpr (Or.inr (ih h2))

theorem fixDtc_idem (raw : List Char) :
    fixDtcMakefile (fixDtcMakefile raw) = fixDtcMakefile raw := by
  by_cases hg : (containsSub (normNl raw) dtcOld && !containsSub (normNl raw) dtcNew) = true
  · have h1 : fixDtcMakefile raw = replaceAll dtcOld dtcNew (normNl raw) := by
      rw [fixDtcMakefile]
      simp only [hg, if_pos]
    rw [h1]
    have hocr : '\r' ∉ replaceAll dtcOld dtcNew (normNl raw) := by
      intro hm
      rcases replaceAllGo_mem hm with h | h
      · exact normNl_no_cr raw h
      · exact absurd h (by decide)
    have hnew : containsSub (replaceAll dtcOld dtcNew (normNl raw)) dtcNew = true :=
      (containsSub_iff _ _).mpr
        (replaceAll_infix_repl (Bool.and_elim_left hg) (by decide))
    rw [fixDtcMakefile, normNl_eq_self hocr]
    rw [if_neg (by simp [hnew])]
  · have h1 : fixDtcMakefile raw = raw := by
      simp only [fixDtcMakefile]
      rw [if_neg hg]
    rw [h1, h1]

theorem endsNl_eq_false_of_nl_notMem {l : List Char} (h : '\n' ∉ l) :
    endsNl l = false := by
  cases hg : l.getLast? with
  | none => simp [endsNl, hg]
  | some w =>
    obtain ⟨ys, hy⟩ := List.getLast?_eq_some_iff.mp hg
    have hw : w ∈ l := hy ▸ List.mem_append_right ys (List.mem_singleton_self w)
    have hne : w ≠ '\n' := fun he => h (he ▸ hw)
    simp [endsNl, hg, hne]

theorem endsNl_append_cons {X l : List Char} {c : Char} :
    endsNl (X ++ c :: l) = endsNl (c :: l) := by
  obtain ⟨L, b, hLb⟩ : ∃ L b, c :: l = L ++ [b] := by
    rcases List.eq_nil_or_concat (c :: l) with h | ⟨L, b, h⟩
    · cases h
    · exact ⟨L, b, by simpa [List.concat_eq_append] using h⟩
  rw [endsNl, endsNl, List.getLast?_append, hLb, List.getLast?_concat]
  rfl

theorem getLast_nil_of_endsNl {ls : List (List Char)} (hne : ls ≠ [])
    (hnl : ∀ l ∈ ls, '\n' ∉ l) (he : endsNl (joinLines ls) = true) :
    ls.getLast? = some [] := by
  obtain ⟨ls', g, hg⟩ : ∃ ls' g, ls = ls' ++ [g] := by
    rcases List.eq_nil_or_concat ls with h | ⟨L, b, h⟩
    · exact absurd h hne
    · exact ⟨L, b, by simpa [List.concat_eq_append] using h⟩
  subst hg
  rw [List.getLast?_concat]
  have hgnl : '\n' ∉ g := hnl g (List.mem_append_right ls' (List.mem_singleton_self g))
  rcases hgc : g with _ | ⟨c, g'⟩
  · rfl
  · exfalso
    subst hgc
    cases ls' with
    | nil =>
      rw [List.nil_append] at he
      have hJ : joinLines [c :: g'] = c :: g' := rfl
      rw [hJ, endsNl_eq_false_of_nl_notMem hgnl] at he
      cases he
    | cons x xs =>
      rw [joinLines_append (by simp) (by simp)] at he
      have hJ : joinLines [c :: g'] = c :: g' := rfl
      rw [hJ] at he
      have h1 : endsNl (joinLines (x :: xs) ++ '\n' :: c :: g') =
          endsNl ('\n' :: c :: g') := endsNl_append_cons
      have h2 : endsNl ('\n' :: c :: g') = endsNl (c :: g') := by
        have : ('\n' :: c :: g') = ['\n'] ++ c :: g' := rfl
        rw [this]
        exact endsNl_append_cons
      rw [h1, h2, endsNl_eq_false_of_nl_notMem hgnl] at he
      cases he

theorem setsym_mem_preserve {sym value t l : List Char} (hsnl : '\n' ∉ sym)
    (hvnl : '\n' ∉ value) (hl : l ∈ splitLines t)
    (hbad : ∃ c ∈ l, markerAlpha sym c = false)
    (hp : (configAssign sym).isPrefixOf l = false) (hne : l ≠ []) :
    l ∈ splitLines (set_defconfig_symbol sym value t) := by
  rw [setsym_split sym value t hsnl hvnl]
  have hl2 : l ∈ splitLines (removeMarkers sym t) := removeMarkers_preserve hbad hl
  by_cases hany : (splitLines (removeMarkers sym t)).any
      (fun a => (configAssign sym).isPrefixOf a) = true
  · rw [if_pos hany]
    exact List.mem_map.mpr ⟨l, hl2, by rw [if_neg (by simp [hp])]⟩
  · rw [if_neg hany]
    refine List.mem_append_left _ ?_
    by_cases he : endsNl (removeMarkers sym t) = true
    · rw [if_pos he]
      have hnl2 : ∀ a ∈ splitLines (removeMarkers sym t), '\n' ∉ a := fun a ha =>
        nl_notMem_of_mem_splitLines ha
      have he2 : endsNl (joinLines (splitLines (removeMarkers sym t))) = true := by
        rw [joinLines_splitLines]
        exact he
      have hgl : (splitLines (removeMarkers sym t)).getLast? = some [] :=
        getLast_nil_of_endsNl (splitLines_ne_nil _) hnl2 he2
      have hdec := List.dropLast_append_getLast? _ hgl
      rw [← hdec] at hl2
      rcases List.mem_append.mp hl2 with h | h
      · exact h
      · simp only [List.mem_singleton] at h
        exact absurd h hne
    · rw [if_neg he]
      exact hl2

theorem setsym_normal_props (sym value text : List Char) (hsnl : '\n' ∉ sym)
    (hvnl : '\n' ∉ value) :
    (∀ l ∈ splitLines (set_defconfig_symbol sym value text),
      is_not_set_marker sym l = false) ∧
    (∀ l ∈ splitLines (set_defconfig_symbol sym value text),
      (configAssign sym).isPrefixOf l = true → l = configAssign sym ++ value) ∧
    configAssign sym ++ value ∈ splitLines (set_defconfig_symbol sym value text) := by
  refine ⟨?_, ?_, setsym_newLine_mem sym value text hsnl hvnl⟩
  · intro l hl
    rcases setsym_mem_cases hsnl hvnl hl with h | h | ⟨_, _, h⟩
    · subst h
      exact marker_of_prefix_false (configAssign_prefix_self sym value)
    · subst h
      exact marker_nil_false sym
    · exact h
  · intro l hl hp
    rcases setsym_mem_cases hsnl hvnl hl with h | h | ⟨_, hnp, _⟩
    · exact h
    · subst h
      rw [prefix_nil_false sym] at hp
      cases hp
    · rw [hnp] at hp
      cases hp

theorem setsym_id {sym value t : List Char}
    (hrm : removeMarkers sym t = t)
    (h2 : ∀ l ∈ splitLines t,
      (configAssign sym).isPrefixOf l = true → l = configAssign sym ++ value)
    (h3 : configAssign sym ++ value ∈ splitLines t) :
    set_defconfig_symbol sym value t = t := by
  have hany : (splitLines t).any (fun l => (configAssign sym).isPrefixOf l) = true :=
    List.any_eq_true.mpr ⟨_, h3, configAssign_prefix_self sym value⟩
  have hmap : (splitLines t).map
      (fun l => if (configAssign sym).isPrefixOf l then configAssign sym ++ value else l) =
      splitLines t := by
    have hcongr := List.map_congr_left (l := splitLines t)
      (f := fun l => if (configAssign sym).isPrefixOf l then configAssign sym ++ value else l)
      (g := id) ?_
    · rw [hcongr, List.map_id]
    · intro a ha
      show (if (configAssign sym).isPrefixOf a = true then configAssign sym ++ value
        else a) = a
      by_cases hp : (configAssign sym).isPrefixOf a = true
      · rw [if_pos hp]
        exact (h2 a ha hp).symm
      · rw [if_neg hp]
  rw [set_defconfig_symbol]
  simp only [hrm, hany, if_pos, hmap, joinLines_splitLines]

theorem setsym_preserved {sym1 v1 sym2 v2 t : List Char}
    (hs2 : '\n' ∉ sym2) (hv2 : '\n' ∉ v2) (he2 : ('=' : Char) ∉ sym2)
    (hp12 : (configAssign sym1).isPrefixOf (configAssign sym2 ++ v2) = false)
    (hp21 : (configAssign sym2).isPrefixOf (configAssign sym1 ++ v1) = false)
    (h1 : ∀ l ∈ splitLines t, is_not_set_marker sym1 l = false)
    (h2 : ∀ l ∈ splitLines t,
      (configAssign sym1).isPrefixOf l = true → l = configAssign sym1 ++ v1)
    (h3 : configAssign sym1 ++ v1 ∈ splitLines t) :
    (∀ l ∈ splitLines (set_defconfig_symbol sym2 v2 t),
      is_not_set_marker sym1 l = false) ∧
    (∀ l ∈ splitLines (set_defconfig_symbol sym2 v2 t),
      (configAssign sym1).isPrefixOf l = true → l = configAssign sym1 ++ v1) ∧
    configAssign sym1 ++ v1 ∈ splitLines (set_defconfig_symbol sym2 v2 t) := by
  refine ⟨?_, ?_, ?_⟩
  · intro l hl
    rcases setsym_mem_cases hs2 hv2 hl with h | h | ⟨hmem, _, _⟩
    · subst h
      exact marker_of_prefix_false (configAssign_prefix_self sym2 v2)
    · subst h
      exact marker_nil_false sym1
    · exact h1 l hmem
  · intro l hl hp
    rcases setsym_mem_cases hs2 hv2 hl with h | h | ⟨hmem, _, _⟩
    · subst h
      rw [hp12] at hp
      cases hp
    · subst h
      rw [prefix_nil_false sym1] at hp
      cases hp
    · exact h2 l hmem hp
  · refine setsym_mem_preserve hs2 hv2 h3 ⟨'=', ?_, markerAlpha_eq_false he2⟩ hp21 ?_
    · have hsub := (List.isPrefixOf_iff_prefix.mp (configAssign_prefix_self sym1 v1)).subset
      refine hsub ?_
      rw [configAssign]
      exact List.mem_append_right _ (List.mem_singleton_self _)
    · intro h
      exact configAssign_ne_nil sym1 (List.append_eq_nil.mp h).1

theorem setsym_no_cr {sym value text : List Char} (hsnl : '\n' ∉ sym)
    (hvnl : '\n' ∉ value) (hs : '\r' ∉ sym) (hv : '\r' ∉ value)
    (ht : '\r' ∉ text) : '\r' ∉ set_defconfig_symbol sym value text := by
  intro hmem
  rw [← joinLines_splitLines (set_defconfig_symbol sym value text)] at hmem
  rcases mem_joinLines hmem with h | ⟨l, hl, hc⟩
  · exact absurd h (by decide)
  · rcases setsym_mem_cases hsnl hvnl hl with h | h | ⟨hmem2, _, _⟩
    · subst h
      exact notMem_newLine (by decide) hs hv hc
    · subst h
      exact absurd hc (List.not_mem_nil _)
    · exact ht (mem_of_mem_splitLines hmem2 hc)

theorem setSymbolFile_eq {sym value raw : List Char} (h : '\r' ∉ raw) :
    setSymbolFile sym value raw = set_defconfig_symbol sym value raw := by
  rw [setSymbolFile, normNl_eq_self h]

theorem setSymbolFile_chain_idem {dc d3 : List Char}
    (hd3 : setSymbolFile (chars "KPROBE_EVENTS") (chars "y")
      (setSymbolFile (chars "KPROBES") (chars "y")
        (setSymbolFile (chars "KSU") (chars "y") dc)) = d3)
    (hm1 : removeMarkers (chars "KSU") d3 = d3)
    (hm2 : removeMarkers (chars "KPROBES") d3 = d3)
    (hm3 : removeMarkers (chars "KPROBE_EVENTS") d3 = d3) :
    setSymbolFile (chars "KPROBE_EVENTS") (chars "y")
      (setSymbolFile (chars "KPROBES") (chars "y")
        (setSymbolFile (chars "KSU") (chars "y") d3)) = d3 := by
  set d1 := setSymbolFile (chars "KSU") (chars "y") dc with hd1
  set d2 := setSymbolFile (chars "KPROBES") (chars "y") d1 with hd2
  have hcr1 : '\r' ∉ d1 := by
    rw [hd1, setSymbolFile]
    exact setsym_no_cr (by decide) (by decide) (by decide) (by decide) (normNl_no_cr dc)
  have hd2e : d2 = set_defconfig_symbol (chars "KPROBES") (chars "y") d1 := by
    rw [hd2, setSymbolFile_eq hcr1]
  have hcr2 : '\r' ∉ d2 := by
    rw [hd2e]
    exact setsym_no_cr (by decide) (by decide) (by decide) (by decide) hcr1
  have hd3e : d3 = set_defconfig_symbol (chars "KPROBE_EVENTS") (chars "y") d2 := by
    rw [← hd3, setSymbolFile_eq hcr2]
  have hcr3 : '\r' ∉ d3 := by
    rw [hd3e]
    exact setsym_no_cr (by decide) (by decide) (by decide) (by decide) hcr2
  have pKSU1 := setsym_normal_props (chars "KSU") (chars "y") (normNl dc)
    (by decide) (by decide)
  have e1 : set_defconfig_symbol (chars "KSU") (chars "y") (normNl dc) = d1 := by
    rw [hd1, setSymbolFile]
  rw [e1] at pKSU1
  have pKSU2 := @setsym_preserved (chars "KSU") (chars "y") (chars "KPROBES")
    (chars "y") d1 (by decide) (by decide) (by decide) (by decide) (by decide)
    pKSU1.1 pKSU1.2.1 pKSU1.2.2
  rw [← hd2e] at pKSU2
  have pKSU3 := @setsym_preserved (chars "KSU") (chars "y") (chars "KPROBE_EVENTS")
    (chars "y") d2 (by decide) (by decide) (by decide) (by decide) (by decide)
    pKSU2.1 pKSU2.2.1 pKSU2.2.2
  rw [← hd3e] at pKSU3
  have pKP2 := setsym_normal_props (chars "KPROBES") (chars "y") d1
    (by decide) (by decide)
  rw [← hd2e] at pKP2
  have pKP3 := @setsym_preserved (chars "KPROBES") (chars "y") (chars "KPROBE_EVENTS")
    (chars "y") d2 (by decide) (by decide) (by decide) (by decide) (by decide)
    pKP2.1 pKP2.2.1 pKP2.2.2
  rw [← hd3e] at pKP3
  have pKE3 := setsym_normal_props (chars "KPROBE_EVENTS") (chars "y") d2
    (by decide) (by decide)
  rw [← hd3e] at pKE3
  have s1 : setSymbolFile (chars "KSU") (chars "y") d3 = d3 := by
    rw [setSymbolFile_eq hcr3]
    exact setsym_id hm1 pKSU3.2.1 pKSU3.2.2
  have s2 : setSymbolFile (chars "KPROBES") (chars "y") d3 = d3 := by
    rw [setSymbolFile_eq hcr3]
    exact setsym_id hm2 pKP3.2.1 pKP3.2.2
  have s3 : setSymbolFile (chars "KPROBE_EVENTS") (chars "y") d3 = d3 := by
    rw [setSymbolFile_eq hcr3]
    exact setsym_id hm3 pKE3.2.1 pKE3.2.2
  rw [s1, s2, s3]

/-! ### Claim C2: idempotence of the orchestrated text mutations -/

/-- C2 (counterexample): the orchestrated mutations are not idempotent.  On
a defconfig holding a `#` line, a disabled marker and a stray
`CONFIG_KSU is not set` line, the first run deletes only the marker; the
deletion makes the `#` line and the stray line adjacent, and since `\s`
matches `\n` the second run's single-pass `re.sub` then matches across the
newline and deletes both, so the second run changes the file again. -/
theorem C2_counterexample :
    patch_kernel_tree (chars "/k")
      ⟨some (chars "obj-$(CONFIG_KSU) += kernelsu/\n"),
       some (chars "source \"drivers/kernelsu/Kconfig\"\n"),
       some (chars "#\n# CONFIG_KSU is not set\nCONFIG_KSU is not set\nfoo\n"), none⟩ =
      .ok ⟨some (chars "obj-$(CONFIG_KSU) += kernelsu/\n"),
       some (chars "source \"drivers/kernelsu/Kconfig\"\n"),
       some (chars "#\nCONFIG_KSU is not set\nfoo\nCONFIG_KSU=y\nCONFIG_KPROBES=y\nCONFIG_KPROBE_EVENTS=y\n"),
       none⟩ ∧
    patch_kernel_tree (chars "/k")
      ⟨some (chars "obj-$(CONFIG_KSU) += kernelsu/\n"),
       some (chars "source \"drivers/kernelsu/Kconfig\"\n"),
       some (chars "#\nCONFIG_KSU is not set\nfoo\nCONFIG_KSU=y\nCONFIG_KPROBES=y\nCONFIG_KPROBE_EVENTS=y\n"),
       none⟩ =
      .ok ⟨some (chars "obj-$(CONFIG_KSU) += kernelsu/\n"),
       some (chars "source \"drivers/kernelsu/Kconfig\"\n"),
       some (chars "foo\nCONFIG_KSU=y\nCONFIG_KPROBES=y\nCONFIG_KPROBE_EVENTS=y\n"), none⟩ ∧
    chars "#\nCONFIG_KSU is not set\nfoo\nCONFIG_KSU=y\nCONFIG_KPROBES=y\nCONFIG_KPROBE_EVENTS=y\n" ≠
      chars "foo\nCONFIG_KSU=y\nCONFIG_KPROBES=y\nCONFIG_KPROBE_EVENTS=y\n" := by
  refine ⟨by decide, by decide, by decide⟩

/-- C2 (amended): for every kernel-tree state accepted by
`patch_kernel_tree` whose resulting defconfig contains no residual match of
the three disabled-marker patterns (the failure case above: a first-run
deletion can leave text that the marker regex, whose `\s` crosses newlines,
matches only on the second pass), a second run changes no file: it returns
the same tree byte for byte. -/
theorem C2_patch_kernel_tree_idempotent (kr : List Char) (t t' : KTree)
    (dc' : List Char) (h : patch_kernel_tree kr t = .ok t')
    (hdc : t'.defconfig = some dc')
    (hm1 : removeMarkers (chars "KSU") dc' = dc')
    (hm2 : removeMarkers (chars "KPROBES") dc' = dc')
    (hm3 : removeMarkers (chars "KPROBE_EVENTS") dc' = dc') :
    patch_kernel_tree kr t' = .ok t' := by
  obtain ⟨mk?, kc?, dc?, dtc?⟩ := t
  cases mk? with
  | none => simp [patch_kernel_tree] at h
  | some mk =>
  cases kc? with
  | none => simp [patch_kernel_tree] at h
  | some kc =>
  cases dc? with
  | none => simp [patch_kernel_tree] at h
  | some dc =>
    simp only [patch_kernel_tree, Except.ok.injEq] at h
    subst h
    have hdce : setSymbolFile (chars "KPROBE_EVENTS") (chars "y")
        (setSymbolFile (chars "KPROBES") (chars "y")
          (setSymbolFile (chars "KSU") (chars "y") dc)) = dc' := by
      simpa using hdc
    have hmk : ensureLineFile (some objSearch) ksuObjLine
        (ensureLineFile (some objSearch) ksuObjLine mk) =
        ensureLineFile (some objSearch) ksuObjLine mk :=
      ensureLineFile_idem _ _ _ (by decide)
    have hkc : ensureLineFile none ksuSourceLine
        (ensureLineFile none ksuSourceLine kc) =
        ensureLineFile none ksuSourceLine kc :=
      ensureLineFile_idem _ _ _ (by decide)
    have hdcI := setSymbolFile_chain_idem hdce hm1 hm2 hm3
    have hdtc : (dtc?.map fixDtcMakefile).map fixDtcMakefile =
        dtc?.map fixDtcMakefile := by
      cases dtc? with
      | none => rfl
      | some d => simp [fixDtc_idem d]
    simp only [patch_kernel_tree]
    rw [hmk, hkc, hdce, hdcI, hdtc]

/-- C2 (witness): a concrete accepted tree whose first-run defconfig holds
no residual marker match; the second run returns it unchanged. -/
theorem C2_witness :
    patch_kernel_tree (chars "/k")
      ⟨some (chars "obj-$(CONFIG_A) += a/\nobj-$(CONFIG_KSU) += kernelsu/\n\nother\n"),
       some (chars "x\nsource \"drivers/kernelsu/Kconfig\"\n"),
       some (chars "CONFIG_KPROBES=y\nCONFIG_KSU=y\nCONFIG_KPROBE_EVENTS=y\n"),
       some (chars "L = $(HOSTLOADLIBES_dtc)\n")⟩ =
    .ok ⟨some (chars "obj-$(CONFIG_A) += a/\nobj-$(CONFIG_KSU) += kernelsu/\n\nother\n"),
       some (chars "x\nsource \"drivers/kernelsu/Kconfig\"\n"),
       some (chars "CONFIG_KPROBES=y\nCONFIG_KSU=y\nCONFIG_KPROBE_EVENTS=y\n"),
       some (chars "L = $(HOSTLOADLIBES_dtc)\n")⟩ :=
  C2_patch_kernel_tree_idempotent (chars "/k")
    ⟨some (chars "obj-$(CONFIG_A) += a/\nother\n"), some (chars "x\n"),
     some (chars "# CONFIG_KSU is not set\nCONFIG_KPROBES=n\n"),
     some (chars "L = $(HOSTLDLIBS_dtc)\n")⟩ _
    (chars "CONFIG_KPROBES=y\nCONFIG_KSU=y\nCONFIG_KPROBE_EVENTS=y\n")
    (by decide) (by decide) (by decide) (by decide) (by decide)

/-! ### Claim C5: required-file validation -/

/-- C5: each of the three required kernel-tree files missing makes
`patch_kernel_tree` halt with a fatal error naming precisely that file (in
source order), while the optional dtc Makefile is never required for
success; and in a full run with the defconfig missing, the halt happens with
the drivers build-file — and the whole tree — still unmutated. -/
theorem C5_missing_file_validation (kr : List Char) (t : KTree) :
    (t.driversMakefile = none →
      patch_kernel_tree kr t =
        .error (chars "Missing " ++ kr ++ chars "/drivers/Makefile")) ∧
    (∀ mk, t.driversMakefile = some mk → t.driversKconfig = none →
      patch_kernel_tree kr t =
        .error (chars "Missing " ++ kr ++ chars "/drivers/Kconfig")) ∧
    (∀ mk kc, t.driversMakefile = some mk → t.driversKconfig = some kc →
      t.defconfig = none →
      patch_kernel_tree kr t =
        .error (chars "Missing " ++ kr ++ chars "/arch/arm64/configs/RMX3265_defconfig")) ∧
    (∀ mk kc dc, t.driversMakefile = some mk → t.driversKconfig = some kc →
      t.defconfig = some dc → (patch_kernel_tree kr t).isOk = true) ∧
    (∀ (s : Sys) (ks : List Char) (d : Dir), s.tree = t → s.ksuKernel = some d →
      (∀ mk kc, t.driversMakefile = some mk → t.driversKconfig = some kc →
        t.defconfig = none →
        (mainRun kr ks none none id s).2 =
          some (chars "Missing " ++ kr ++ chars "/arch/arm64/configs/RMX3265_defconfig") ∧
        (mainRun kr ks none none id s).1.tree = t)) := by
  refine ⟨?_, ?_, ?_, ?_, ?_⟩
  · intro h
    rw [patch_kernel_tree, h]
  · intro mk hmk hkc
    rw [patch_kernel_tree, hmk, hkc]
  · intro mk kc hmk hkc hdc
    rw [patch_kernel_tree, hmk, hkc, hdc]
  · intro mk kc dc hmk hkc hdc
    rw [patch_kernel_tree, hmk, hkc, hdc]
    rfl
  · intro s ks d hst hksu mk kc hmk hkc hdc
    have hpatch : patch_kernel_tree kr t =
        .error (chars "Missing " ++ kr ++ chars "/arch/arm64/configs/RMX3265_defconfig") := by
      rw [patch_kernel_tree, hmk, hkc, hdc]
    constructor
    · simp [mainRun, apply_optional_patch, copy_kernelsu_sources, hksu, hst, hpatch]
    · simp [mainRun, apply_optional_patch, copy_kernelsu_sources, hksu, hst, hpatch]

/-- C5 (witness): concrete instances for each missing file and the
successful all-present case without a dtc Makefile. -/
theorem C5_witness :
    patch_kernel_tree (chars "/k") ⟨none, some [], some [], none⟩ =
      .error (chars "Missing " ++ chars "/k" ++ chars "/drivers/Makefile") ∧
    patch_kernel_tree (chars "/k") ⟨some [], some [], none, none⟩ =
      .error (chars "Missing " ++ chars "/k" ++ chars "/arch/arm64/configs/RMX3265_defconfig") ∧
    (patch_kernel_tree (chars "/k") ⟨some [], some [], some [], none⟩).isOk = true := by
  have h := C5_missing_file_validation (chars "/k") ⟨none, some [], some [], none⟩
  have h2 := C5_missing_file_validation (chars "/k") ⟨some [], some [], none, none⟩
  have h3 := C5_missing_file_validation (chars "/k") ⟨some [], some [], some [], none⟩
  exact ⟨h.1 rfl, h2.2.2.1 [] [] rfl rfl rfl, h3.2.2.2.1 [] [] [] rfl rfl rfl⟩

/-! ### Claim C10: the copy runs before the validation -/

/-- C10: `main` installs the module sources before `patch_kernel_tree`
validates the required files, so when the defconfig is missing the
destination driver directory has already been deleted and replaced by the
copied sources when the fatal error is raised, and that mutation persists in
the final state. -/
theorem C10_copy_precedes_validation (kr ks : List Char) (s : Sys) (d : Dir)
    (hksu : s.ksuKernel = some d)
    {mk kc : List Char}
    (hmk : s.tree.driversMakefile = some mk) (hkc : s.tree.driversKconfig = some kc)
    (hdc : s.tree.defconfig = none) :
    (mainRun kr ks none none id s).1.destDir = some (normalizeKconfigEntry d) ∧
    (mainRun kr ks none none id s).2 =
      some (chars "Missing " ++ kr ++ chars "/arch/arm64/configs/RMX3265_defconfig") := by
  have hpatch : patch_kernel_tree kr s.tree =
      .error (chars "Missing " ++ kr ++ chars "/arch/arm64/configs/RMX3265_defconfig") := by
    rw [patch_kernel_tree, hmk, hkc, hdc]
  constructor
  · simp [mainRun, apply_optional_patch, copy_kernelsu_sources, hksu, hpatch]
  · simp [mainRun, apply_optional_patch, copy_kernelsu_sources, hksu, hpatch]

/-- C10 (witness): concrete instance — the stale destination is replaced by
the copy even though the run fails on the missing defconfig. -/
theorem C10_witness :
    (mainRun (chars "/k") (chars "/ksu") none none id
      ⟨some [(chars "core.c", chars "code")], some [(chars "stale", chars "old")],
        ⟨some [], some [], none, none⟩⟩).1.destDir =
      some [(chars "core.c", chars "code")] ∧
    (mainRun (chars "/k") (chars "/ksu") none none id
      ⟨some [(chars "core.c", chars "code")], some [(chars "stale", chars "old")],
        ⟨some [], some [], none, none⟩⟩).2 =
      some (chars "Missing " ++ chars "/k" ++ chars "/arch/arm64/configs/RMX3265_defconfig") := by
  have h := C10_copy_precedes_validation (chars "/k") (chars "/ksu")
    ⟨some [(chars "core.c", chars "code")], some [(chars "stale", chars "old")],
      ⟨some [], some [], none, none⟩⟩
    [(chars "core.c", chars "code")] rfl rfl rfl rfl
  refine ⟨?_, h.2⟩
  rw [h.1]
  decide

/-! ### Claim C6: the optional patch applier -/

/-- C6: `apply_optional_patch` is a no-op (no subprocess invoked, no error)
when the patch file does not exist; succeeds when the external application
succeeds; and fails fatally exactly when the file exists and the external
application fails, with a diagnostic containing the patch path and the
captured standard output and standard error. -/
theorem C6_apply_optional_patch_spec :
    (∀ run, apply_optional_patch none run = .ok false) ∧
    (∀ p, apply_optional_patch (some p) none = .ok true) ∧
    (∀ p out err,
      apply_optional_patch (some p) (some (out, err)) =
        .error (chars "Failed to apply build-fixes patch.\npatch: " ++ p ++
          chars "\nstdout:\n" ++ out ++ chars "\nstderr:\n" ++ err ++ chars "\n") ∧
      p <:+: (chars "Failed to apply build-fixes patch.\npatch: " ++ p ++
          chars "\nstdout:\n" ++ out ++ chars "\nstderr:\n" ++ err ++ chars "\n") ∧
      out <:+: (chars "Failed to apply build-fixes patch.\npatch: " ++ p ++
          chars "\nstdout:\n" ++ out ++ chars "\nstderr:\n" ++ err ++ chars "\n") ∧
      err <:+: (chars "Failed to apply build-fixes patch.\npatch: " ++ p ++
          chars "\nstdout:\n" ++ out ++ chars "\nstderr:\n" ++ err ++ chars "\n")) := by
  refine ⟨fun run => rfl, fun p => rfl, fun p out err => ⟨rfl, ?_, ?_, ?_⟩⟩
  · exact ⟨chars "Failed to apply build-fixes patch.\npatch: ",
      chars "\nstdout:\n" ++ out ++ chars "\nstderr:\n" ++ err ++ chars "\n",
      by simp⟩
  · exact ⟨chars "Failed to apply build-fixes patch.\npatch: " ++ p ++ chars "\nstdout:\n",
      chars "\nstderr:\n" ++ err ++ chars "\n", by simp⟩
  · exact ⟨chars "Failed to apply build-fixes patch.\npatch: " ++ p ++
      chars "\nstdout:\n" ++ out ++ chars "\nstderr:\n", chars "\n", by simp⟩

/-! ### Claim C7: the source-tree copy -/

/-- C7 (counterexample): the destination is not byte-for-byte "exactly" the
source `kernel` subdirectory — a source `Kconfig` with CRLF line endings is
re-written normalized to LF after the copy, so the copied directory differs
from the source. -/
theorem C7_counterexample :
    copy_kernelsu_sources (chars "/ksu")
      ⟨some [(chars "Kconfig", chars "a\r\nb\n")],
        some [(chars "stale", chars "z")], ⟨none, none, none, none⟩⟩ =
      .ok ⟨some [(chars "Kconfig", chars "a\r\nb\n")],
        some [(chars "Kconfig", chars "a\nb\n")], ⟨none, none, none, none⟩⟩ ∧
    [(chars "Kconfig", chars "a\nb\n")] ≠ [(chars "Kconfig", chars "a\r\nb\n")] := by
  exact ⟨by decide, by decide⟩

/-- C7 (amended): `copy_kernelsu_sources` replaces the destination driver
directory wholesale with the source `kernel` subdirectory — the prior
destination contents are irrelevant and no stale file survives — with the
one exception that the `Kconfig` file's line endings are normalized to LF;
all file names are preserved, every non-`Kconfig` file is copied byte for
byte, and a missing source subdirectory is fatal naming that path. -/
theorem C7_copy_replaces_destination (ks : List Char) :
    (∀ (s : Sys) (d : Dir), s.ksuKernel = some d →
      copy_kernelsu_sources ks s =
        .ok { s with destDir := some (normalizeKconfigEntry d) }) ∧
    (∀ d : Dir, (normalizeKconfigEntry d).map Prod.fst = d.map Prod.fst) ∧
    (∀ (d : Dir) (e : List Char × List Char), e ∈ d → e.1 ≠ chars "Kconfig" →
      e ∈ normalizeKconfigEntry d) ∧
    (∀ s : Sys, s.ksuKernel = none →
      copy_kernelsu_sources ks s =
        .error (chars "KernelSU sources not found at: " ++ ks ++ chars "/kernel")) := by
  refine ⟨?_, ?_, ?_, ?_⟩
  · intro s d h
    rw [copy_kernelsu_sources, h]
  · intro d
    simp only [normalizeKconfigEntry, List.map_map]
    refine List.map_congr_left ?_
    intro e he
    by_cases hk : e.1 = chars "Kconfig" <;> simp [Function.comp, hk]
  · intro d e he hk
    simp only [normalizeKconfigEntry]
    exact List.mem_map.mpr ⟨e, he, by rw [if_neg hk]⟩
  · intro s h
    rw [copy_kernelsu_sources, h]

/-- C7 (witness): concrete instance — a stale destination is wholly
replaced, a non-Kconfig source file is copied verbatim, a missing source is
fatal. -/
theorem C7_witness :
    copy_kernelsu_sources (chars "/ksu")
      ⟨some [(chars "core.c", chars "x")], some [(chars "stale", chars "z")],
        ⟨none, none, none, none⟩⟩ =
      .ok ⟨some [(chars "core.c", chars "x")],
        some (normalizeKconfigEntry [(chars "core.c", chars "x")]),
        ⟨none, none, none, none⟩⟩ ∧
    (chars "core.c", chars "x") ∈ normalizeKconfigEntry [(chars "core.c", chars "x")] ∧
    copy_kernelsu_sources (chars "/ksu") ⟨none, some [], ⟨none, none, none, none⟩⟩ =
      .error (chars "KernelSU sources not found at: " ++ chars "/ksu" ++ chars "/kernel") := by
  have h := C7_copy_replaces_destination (chars "/ksu")
  exact ⟨h.1 _ [(chars "core.c", chars "x")] rfl,
    h.2.2.1 [(chars "core.c", chars "x")] (chars "core.c", chars "x")
      (List.mem_singleton_self _) (by decide),
    h.2.2.2 _ rfl⟩
